import Mathlib

/-!
# Verification of the `deep_control` prioritized replay engine

Shallow embedding of `deep_control/replay.py`:

* `SegmentTree` (generic over the stored value type and the combining
  operation) with its batched `__setitem__` walk, `__getitem__`,
  `_reduce_helper` / `reduce`, and the helper `unique`;
* `SumSegmentTree.find_prefixsum_idx` (vectorized descent);
* `ReplayBufferStorage` (circular store), `ReplayBuffer` (uniform) and
  `PrioritizedReplayBuffer` (`push`, `_sample_proportional`, `sample`,
  `update_priorities`).

A tree with capacity `2 ^ k` is embedded as its exponent `k` together with
the node-value map `v : ℕ → τ` (the Python `_value` array of length
`2 * capacity`; leaf `i` lives at node `2 ^ k + i`).  Python float
arithmetic is embedded as exact arithmetic (`ℚ` at tree level, `ℝ` with
`Real.rpow` at buffer level, `WithTop ℝ` for the min-tree whose neutral
element is `float('inf')`).  Fallible code (assertion failures, unbounded
recursion) returns `Option` / `Except`.
-/

namespace DeepControl

/-- `unique` from `replay.py`: deduplication for arrays, keeping an element
when it differs from its right neighbour and always keeping the last one.
Exactly removes duplicates only on sorted input, which is how the segment
tree update loop uses it (on unsorted input some duplicates may remain,
which the update loop tolerates). -/
def unique : List ℕ → List ℕ
  | [] => []
  | [a] => [a]
  | a :: b :: rest => if a = b then unique (b :: rest) else a :: unique (b :: rest)

theorem mem_unique {x : ℕ} : ∀ {l : List ℕ}, x ∈ unique l ↔ x ∈ l
  | [] => Iff.rfl
  | [a] => Iff.rfl
  | a :: b :: rest => by
    by_cases hab : a = b
    · subst hab
      rw [unique, if_pos rfl, mem_unique (l := a :: rest)]
      simp only [List.mem_cons]
      tauto
    · simp only [unique, if_neg hab, List.mem_cons, mem_unique (l := b :: rest)]

theorem unique_ne_nil : ∀ {l : List ℕ}, l ≠ [] → unique l ≠ []
  | [], h => absurd rfl h
  | [_], _ => by simp [unique]
  | a :: b :: rest, _ => by
    by_cases hab : a = b
    · simpa [unique, if_pos hab] using unique_ne_nil (l := b :: rest) (by simp)
    · simp [unique, if_neg hab]

section Generic

variable {τ : Type}

/-- Pointwise function update at a single index (one numpy store). -/
def upd (v : ℕ → τ) (i : ℕ) (x : τ) : ℕ → τ :=
  fun n => if n = i then x else v n

/-- Vectorized numpy fancy assignment `value[idxs] = vals`: sequential
stores, so a repeated index keeps the last value. -/
def writeSeq : (ℕ → τ) → List ℕ → List τ → (ℕ → τ)
  | v, [], _ => v
  | v, _, [] => v
  | v, i :: is, x :: xs => writeSeq (upd v i x) is xs

theorem writeSeq_not_mem (v : ℕ → τ) :
    ∀ (idxs : List ℕ) (vals : List τ) {j : ℕ}, j ∉ idxs →
      writeSeq v idxs vals j = v j := by
  intro idxs
  induction idxs generalizing v with
  | nil => intro vals j _; cases vals <;> rfl
  | cons i is ih =>
    intro vals j hj
    cases vals with
    | nil => rfl
    | cons x xs =>
      have hji : j ≠ i := by intro h; exact hj (h ▸ List.mem_cons_self i is)
      have hjs : j ∉ is := fun h => hj (List.mem_cons_of_mem _ h)
      simp only [writeSeq, ih (upd v i x) xs hjs, upd, if_neg hji]

theorem writeSeq_zip (v : ℕ → τ) :
    ∀ (idxs : List ℕ) (vals : List τ), idxs.Nodup →
      idxs.length = vals.length →
      ∀ p ∈ idxs.zip vals, writeSeq v idxs vals p.1 = p.2 := by
  intro idxs
  induction idxs generalizing v with
  | nil => intro vals _ _ p hp; simp at hp
  | cons i is ih =>
    intro vals hnd hlen p hp
    cases vals with
    | nil => simp at hlen
    | cons x xs =>
      rcases List.mem_cons.1 hp with h | h
      · subst h
        have : i ∉ is := (List.nodup_cons.1 hnd).1
        simp only [writeSeq, writeSeq_not_mem _ is xs this, upd]
        simp
      · exact ih (upd v i x) xs (List.nodup_cons.1 hnd).2
          (by simpa using hlen) p h

end Generic

theorem unique_const {c : ℕ} : ∀ {l : List ℕ}, l ≠ [] → (∀ x ∈ l, x = c) →
    unique l = [c]
  | [], h, _ => absurd rfl h
  | [a], _, hc => by rw [hc a (by simp)]; rfl
  | a :: b :: rest, _, hc => by
    have ha : a = c := hc a (by simp)
    have hb : b = c := hc b (by simp)
    rw [unique, if_pos (ha.trans hb.symm)]
    exact unique_const (l := b :: rest) (by simp)
      (fun x hx => hc x (List.mem_cons_of_mem _ hx))

section Tree

variable {τ : Type} (op : τ → τ → τ)

/-- One level of the `__setitem__` upward walk:
`value[idxs] = operation(value[2*idxs], value[2*idxs+1])`.  The right-hand
side is evaluated wholly before the assignment, so duplicate indices in
`idxs` simply receive the same recomputed value. -/
def setChildren (v : ℕ → τ) (idxs : List ℕ) : ℕ → τ :=
  fun n => if n ∈ idxs then op (v (2 * n)) (v (2 * n + 1)) else v n

/-- The `while len(idxs) > 1 or idxs[0] > 0` loop of `__setitem__`,
with explicit fuel (the loop runs at most one iteration per tree level). -/
def setLoop : ℕ → (ℕ → τ) → List ℕ → (ℕ → τ)
  | 0, v, _ => v
  | fuel + 1, v, idxs =>
    if 1 < idxs.length ∨ 0 < idxs.headD 0 then
      setLoop fuel (setChildren op v idxs) (unique (idxs.map (· / 2)))
    else v

/-- `SegmentTree.__setitem__` for a tree of capacity `2 ^ k`: write the
leaves at array positions `idx + capacity`, then walk upward through
`unique(idxs // 2)` recomputing each ancestor. -/
def setItem (k : ℕ) (v : ℕ → τ) (idxs : List ℕ) (vals : List τ) : ℕ → τ :=
  let leaves := idxs.map (2 ^ k + ·)
  setLoop op (k + 1) (writeSeq v leaves vals) (unique (leaves.map (· / 2)))

/-- `SegmentTree.__getitem__`: bounds-checked direct leaf lookup
(`assert np.max(idx) < capacity`, `assert 0 <= np.min(idx)`). -/
def getItem (k : ℕ) (v : ℕ → τ) (i : ℕ) : Option τ :=
  if i < 2 ^ k then some (v (2 ^ k + i)) else none

/-- The internal-node invariant of the spec: every internal node caches
`operation` of its two children. -/
def parentInv (k : ℕ) (v : ℕ → τ) : Prop :=
  ∀ n, 1 ≤ n → n < 2 ^ k → v n = op (v (2 * n)) (v (2 * n + 1))

/-- `n` is one of the nodes the upward walk starting from `idxs` (all at
the same tree level) rewrites: an ancestor `i / 2 ^ d`, `d ≤ m`, of some
`i ∈ idxs`, including `idxs` itself (`d = 0`). -/
def Touched (idxs : List ℕ) (m n : ℕ) : Prop :=
  ∃ i ∈ idxs, ∃ d ≤ m, n = i / 2 ^ d

theorem touched_lt {idxs : List ℕ} {m n B : ℕ} (hB : ∀ i ∈ idxs, i < B)
    (h : Touched idxs m n) : n < B := by
  obtain ⟨i, hi, d, _, rfl⟩ := h
  exact lt_of_le_of_lt (Nat.div_le_self _ _) (hB i hi)

theorem touched_of_mem {idxs : List ℕ} {m n : ℕ} (h : n ∈ idxs) :
    Touched idxs m n :=
  ⟨n, h, 0, Nat.zero_le _, by simp⟩

theorem setLoop_stop {v : ℕ → τ} {l : List ℕ} (fuel : ℕ)
    (h : ¬(1 < l.length ∨ 0 < l.headD 0)) : setLoop op fuel v l = v := by
  cases fuel with
  | zero => rfl
  | succ f => simp only [setLoop, if_neg h]

/-- Effect of the upward walk launched from a non-empty batch of indices
all at level `m` (i.e. in `[2^m, 2^(m+1))`): every node it does not touch
keeps its value, and every node it touches ends holding `op` of the final
values of its two children. -/
theorem setLoop_spec :
    ∀ (m fuel : ℕ) (v : ℕ → τ) (idxs : List ℕ), m < fuel → idxs ≠ [] →
      (∀ i ∈ idxs, 2 ^ m ≤ i ∧ i < 2 ^ (m + 1)) →
      (∀ n, ¬Touched idxs m n → setLoop op fuel v idxs n = v n) ∧
      (∀ n, Touched idxs m n →
        setLoop op fuel v idxs n =
          op (setLoop op fuel v idxs (2 * n))
            (setLoop op fuel v idxs (2 * n + 1))) := by
  intro m
  induction m with
  | zero =>
    intro fuel v idxs hf hne hrange
    obtain ⟨f, rfl⟩ : ∃ f, fuel = f + 1 := ⟨fuel - 1, by omega⟩
    have hone : ∀ i ∈ idxs, i = 1 := by
      intro i hi
      have := hrange i hi
      omega
    have hhead : idxs.headD 0 = 1 := by
      cases idxs with
      | nil => exact absurd rfl hne
      | cons a l => exact hone a (by simp)
    have hcond : 1 < idxs.length ∨ 0 < idxs.headD 0 := Or.inr (by omega)
    have hmap : unique (idxs.map (· / 2)) = [0] := by
      refine unique_const (by simpa using hne) ?_
      intro x hx
      obtain ⟨i, hi, rfl⟩ := List.mem_map.1 hx
      rw [hone i hi]
    have hres : setLoop op (f + 1) v idxs = setChildren op v idxs := by
      rw [setLoop, if_pos hcond, hmap, setLoop_stop op f (by simp)]
    rw [hres]
    constructor
    · intro n hn
      have hn1 : n ∉ idxs := fun h => hn (touched_of_mem h)
      simp only [setChildren, if_neg hn1]
    · intro n hn
      obtain ⟨i, hi, d, hd, rfl⟩ := hn
      interval_cases d
      have hi1 : i = 1 := hone i hi
      subst hi1
      have h1 : (1 : ℕ) / 2 ^ 0 = 1 := by norm_num
      rw [h1]
      have h2 : (2 : ℕ) ∉ idxs := fun h => by have := hone 2 h; omega
      have h3 : (3 : ℕ) ∉ idxs := fun h => by have := hone 3 h; omega
      have h1m : (1 : ℕ) ∈ idxs := by
        cases idxs with
        | nil => exact absurd rfl hne
        | cons a l => rw [← hone a (by simp)]; simp
      simp only [setChildren, if_pos h1m, if_neg h2, if_neg h3]
  | succ m ih =>
    intro fuel v idxs hf hne hrange
    obtain ⟨f, rfl⟩ : ∃ f, fuel = f + 1 := ⟨fuel - 1, by omega⟩
    have hf' : m < f := by omega
    have hhead : 0 < idxs.headD 0 := by
      cases idxs with
      | nil => exact absurd rfl hne
      | cons a l =>
        have := (hrange a (by simp)).1
        have h2 : 0 < 2 ^ (m + 1) := Nat.pos_pow_of_pos _ (by norm_num)
        simpa using lt_of_lt_of_le h2 this
    have hcond : 1 < idxs.length ∨ 0 < idxs.headD 0 := Or.inr hhead
    set v1 := setChildren op v idxs with hv1
    set idxs' := unique (idxs.map (· / 2)) with hidxs'
    have hres : setLoop op (f + 1) v idxs = setLoop op f v1 idxs' := by
      rw [setLoop, if_pos hcond]
    have hmem' : ∀ x, x ∈ idxs' ↔ ∃ i ∈ idxs, x = i / 2 := by
      intro x
      rw [hidxs', mem_unique, List.mem_map]
      constructor
      · rintro ⟨i, hi, rfl⟩; exact ⟨i, hi, rfl⟩
      · rintro ⟨i, hi, rfl⟩; exact ⟨i, hi, rfl⟩
    have hne' : idxs' ≠ [] :=
      unique_ne_nil (by simpa using hne)
    have hrange' : ∀ i ∈ idxs', 2 ^ m ≤ i ∧ i < 2 ^ (m + 1) := by
      intro x hx
      obtain ⟨i, hi, rfl⟩ := (hmem' x).1 hx
      obtain ⟨hlo, hhi⟩ := hrange i hi
      constructor
      · rw [Nat.le_div_iff_mul_le (by norm_num)]
        calc 2 ^ m * 2 = 2 ^ (m + 1) := by ring
        _ ≤ i := hlo
      · rw [Nat.div_lt_iff_lt_mul (by norm_num)]
        calc i < 2 ^ (m + 1 + 1) := hhi
        _ = 2 ^ (m + 1) * 2 := by ring
    obtain ⟨ihA, ihB⟩ := ih f v1 idxs' hf' hne' hrange'
    have htdec : ∀ n, Touched idxs (m + 1) n ↔ n ∈ idxs ∨ Touched idxs' m n := by
      intro n
      constructor
      · rintro ⟨i, hi, d, hd, rfl⟩
        cases d with
        | zero => left; simpa using hi
        | succ d' =>
          right
          refine ⟨i / 2, (hmem' _).2 ⟨i, hi, rfl⟩, d', by omega, ?_⟩
          rw [Nat.div_div_eq_div_mul]
          congr 1
          rw [pow_succ']
      · rintro (h | ⟨p, hp, d, hd, rfl⟩)
        · exact touched_of_mem h
        · obtain ⟨i, hi, rfl⟩ := (hmem' p).1 hp
          refine ⟨i, hi, d + 1, by omega, ?_⟩
          rw [Nat.div_div_eq_div_mul]
          congr 1
          rw [pow_succ']
    have hv1_off : ∀ n, n ∉ idxs → v1 n = v n := by
      intro n hn; simp only [hv1, setChildren, if_neg hn]
    have htouched'_lt : ∀ n, Touched idxs' m n → n < 2 ^ (m + 1) :=
      fun n h => touched_lt (fun i hi => (hrange' i hi).2) h
    rw [hres]
    constructor
    · intro n hn
      rw [htdec] at hn
      push_neg at hn
      rw [ihA n hn.2, hv1_off n hn.1]
    · intro n hn
      rw [htdec] at hn
      by_cases ht' : Touched idxs' m n
      · exact ihB n ht'
      · have hmem : n ∈ idxs := hn.resolve_right ht'
        have hnlo : 2 ^ (m + 1) ≤ n := (hrange n hmem).1
        have hchild : ∀ c, 2 ^ (m + 1 + 1) ≤ c →
            setLoop op f v1 idxs' c = v c := by
          intro c hc
          have hc1 : c ∉ idxs := fun h => by
            have := (hrange c h).2; omega
          have hc2 : ¬Touched idxs' m c := fun h => by
            have := htouched'_lt c h
            have h2 : 2 ^ (m + 1) < 2 ^ (m + 1 + 1) :=
              Nat.pow_lt_pow_right (by norm_num) (by omega)
            omega
          rw [ihA c hc2, hv1_off c hc1]
        have hL : setLoop op f v1 idxs' (2 * n) = v (2 * n) :=
          hchild _ (by calc 2 ^ (m + 1 + 1) = 2 * 2 ^ (m + 1) := by ring
            _ ≤ 2 * n := by omega)
        have hR : setLoop op f v1 idxs' (2 * n + 1) = v (2 * n + 1) :=
          hchild _ (by calc 2 ^ (m + 1 + 1) = 2 * 2 ^ (m + 1) := by ring
            _ ≤ 2 * n + 1 := by omega)
        have hself : setLoop op f v1 idxs' n = v1 n := by
          refine ihA n (fun h => ?_)
          have := htouched'_lt n h
          omega
        rw [hself, hL, hR, hv1, setChildren, if_pos hmem]

theorem setItem_nil (k : ℕ) (v : ℕ → τ) (vals : List τ) :
    setItem op k v [] vals = v := by
  have h : setLoop op (k + 1) v [] = v :=
    setLoop_stop op (l := []) (k + 1) (by simp)
  unfold setItem
  cases vals with
  | nil => simpa [writeSeq, unique] using h
  | cons x xs => simpa [writeSeq, unique] using h

/-- The upward walk never writes to leaf positions: at or beyond node
`2 ^ k` a `setItem` agrees with the plain leaf writes. -/
theorem setItem_leaf_eq_writeSeq (k : ℕ) (v : ℕ → τ) (idxs : List ℕ)
    (vals : List τ) (hidx : ∀ i ∈ idxs, i < 2 ^ k) {c : ℕ} (hc : 2 ^ k ≤ c) :
    setItem op k v idxs vals c = writeSeq v (idxs.map (2 ^ k + ·)) vals c := by
  cases hne : idxs with
  | nil => rw [setItem_nil]; cases vals <;> rfl
  | cons a l =>
    rw [← hne]
    have hne' : idxs ≠ [] := by rw [hne]; simp
    set leaves := idxs.map (2 ^ k + ·) with hleaves
    set v0 := writeSeq v leaves vals with hv0
    set parents := unique (leaves.map (· / 2)) with hparents
    have hmemp : ∀ x, x ∈ parents ↔ ∃ i ∈ idxs, x = (2 ^ k + i) / 2 := by
      intro x
      rw [hparents, mem_unique, List.mem_map, hleaves]
      constructor
      · rintro ⟨y, hy, rfl⟩
        obtain ⟨i, hi, rfl⟩ := List.mem_map.1 hy
        exact ⟨i, hi, rfl⟩
      · rintro ⟨i, hi, rfl⟩
        exact ⟨2 ^ k + i, List.mem_map.2 ⟨i, hi, rfl⟩, rfl⟩
    show setLoop op (k + 1) v0 parents c = v0 c
    cases k with
    | zero =>
      have : parents = [0] := by
        refine unique_const ?_ ?_
        · rw [hleaves]; simpa using hne'
        · intro x hx
          obtain ⟨y, hy, rfl⟩ := List.mem_map.1 hx
          rw [hleaves] at hy
          obtain ⟨i, hi, rfl⟩ := List.mem_map.1 hy
          have := hidx i hi
          interval_cases i
          rfl
      rw [this, setLoop_stop op (l := [0]) (0 + 1) (by simp)]
    | succ K =>
      have hrangep : ∀ x ∈ parents, 2 ^ K ≤ x ∧ x < 2 ^ (K + 1) := by
        intro x hx
        obtain ⟨i, hi, rfl⟩ := (hmemp x).1 hx
        have hiK := hidx i hi
        constructor
        · rw [Nat.le_div_iff_mul_le (by norm_num)]
          calc 2 ^ K * 2 = 2 ^ (K + 1) := by ring
          _ ≤ 2 ^ (K + 1) + i := by omega
        · rw [Nat.div_lt_iff_lt_mul (by norm_num)]
          calc 2 ^ (K + 1) + i < 2 ^ (K + 1) + 2 ^ (K + 1) := by omega
          _ = 2 ^ (K + 1) * 2 := by ring
      have hnep : parents ≠ [] := by
        rw [hparents]
        exact unique_ne_nil (by rw [hleaves]; simpa using hne')
      obtain ⟨specA, _⟩ := setLoop_spec op K (K + 2) v0 parents (by omega)
        hnep hrangep
      refine specA c (fun h => ?_)
      have := touched_lt (fun i hi => (hrangep i hi).2) h
      omega

/-- Batch `__setitem__` preserves the internal-node invariant, for every
index batch inside `[0, capacity)` — duplicated, unsorted or wrapped
batches included. -/
theorem setItem_parentInv (k : ℕ) (v : ℕ → τ) (idxs : List ℕ)
    (vals : List τ) (hidx : ∀ i ∈ idxs, i < 2 ^ k)
    (hinv : parentInv op k v) : parentInv op k (setItem op k v idxs vals) := by
  cases hne : idxs with
  | nil => rw [setItem_nil]; exact hinv
  | cons a l =>
    rw [← hne]
    have hne' : idxs ≠ [] := by rw [hne]; simp
    cases k with
    | zero => intro n h1 h2; omega
    | succ K =>
      set leaves := idxs.map (2 ^ (K + 1) + ·) with hleaves
      set v0 := writeSeq v leaves vals with hv0
      set parents := unique (leaves.map (· / 2)) with hparents
      have hleafrange : ∀ x ∈ leaves, 2 ^ (K + 1) ≤ x ∧ x < 2 ^ (K + 2) := by
        intro x hx
        rw [hleaves] at hx
        obtain ⟨i, hi, rfl⟩ := List.mem_map.1 hx
        have := hidx i hi
        constructor
        · omega
        · have : 2 ^ (K + 2) = 2 ^ (K + 1) + 2 ^ (K + 1) := by ring
          omega
      have hmemp : ∀ x, x ∈ parents ↔ ∃ y ∈ leaves, x = y / 2 := by
        intro x
        rw [hparents, mem_unique, List.mem_map]
        constructor
        · rintro ⟨y, hy, rfl⟩; exact ⟨y, hy, rfl⟩
        · rintro ⟨y, hy, rfl⟩; exact ⟨y, hy, rfl⟩
      have hrangep : ∀ x ∈ parents, 2 ^ K ≤ x ∧ x < 2 ^ (K + 1) := by
        intro x hx
        obtain ⟨y, hy, rfl⟩ := (hmemp x).1 hx
        obtain ⟨hlo, hhi⟩ := hleafrange y hy
        constructor
        · rw [Nat.le_div_iff_mul_le (by norm_num)]
          calc 2 ^ K * 2 = 2 ^ (K + 1) := by ring
          _ ≤ y := hlo
        · rw [Nat.div_lt_iff_lt_mul (by norm_num)]
          calc y < 2 ^ (K + 2) := hhi
          _ = 2 ^ (K + 1) * 2 := by ring
      have hnep : parents ≠ [] := by
        rw [hparents]
        exact unique_ne_nil (by rw [hleaves]; simpa using hne')
      obtain ⟨specA, specB⟩ := setLoop_spec op K (K + 2) v0 parents
        (by omega) hnep hrangep
      have hv0_int : ∀ n, n < 2 ^ (K + 1) → v0 n = v n := by
        intro n hn
        rw [hv0]
        refine writeSeq_not_mem v leaves vals (fun h => ?_)
        have := (hleafrange n h).1
        omega
      have hdef : setItem op (K + 1) v idxs vals = setLoop op (K + 2) v0 parents :=
        rfl
      rw [hdef]
      intro n h1 h2
      by_cases ht : Touched parents K n
      · exact specB n ht
      · -- untouched internal node: its children are untouched too
        have hchild : ∀ c, (c = 2 * n ∨ c = 2 * n + 1) →
            setLoop op (K + 2) v0 parents c = v c := by
          intro c hcn
          have hcdiv : c / 2 = n := by rcases hcn with rfl | rfl <;> omega
          have hcleaf : c ∉ leaves := by
            intro h
            refine ht ⟨n, ?_, 0, Nat.zero_le _, by simp⟩
            exact (hmemp n).2 ⟨c, h, hcdiv.symm⟩
          by_cases hcint : c < 2 ^ (K + 1)
          · -- internal child
            have hct : ¬Touched parents K c := by
              rintro ⟨p, hp, d, hd, rfl⟩
              obtain ⟨hplo, hphi⟩ := hrangep p hp
              have hdK : d < K := by
                by_contra hge
                push_neg at hge
                have hdEq : d = K := by omega
                have h1' : p / 2 ^ d = 1 := by
                  rw [hdEq]
                  have hlo' : 1 ≤ p / 2 ^ K := by
                    rw [Nat.le_div_iff_mul_le (Nat.pos_pow_of_pos _ (by norm_num))]
                    omega
                  have hhi' : p / 2 ^ K < 2 := by
                    rw [Nat.div_lt_iff_lt_mul (Nat.pos_pow_of_pos _ (by norm_num))]
                    have hp2 : 2 ^ (K + 1) = 2 ^ K * 2 := by ring
                    omega
                  omega
                rw [h1'] at hcn
                omega
              refine ht ⟨p, hp, d + 1, by omega, ?_⟩
              rw [← hcdiv, Nat.div_div_eq_div_mul]
              have hps : 2 ^ d * 2 = 2 ^ (d + 1) := (pow_succ 2 d).symm
              rw [hps]
            rw [specA c hct, hv0_int c hcint]
          · -- leaf child, not among the written leaves
            have hct : ¬Touched parents K c := fun h => by
              have := touched_lt (fun i hi => (hrangep i hi).2) h
              omega
            rw [specA c hct, hv0]
            exact writeSeq_not_mem v leaves vals hcleaf
        rw [specA n ht, hv0_int n h2, hinv n h1 h2,
          hchild (2 * n) (Or.inl rfl), hchild (2 * n + 1) (Or.inr rfl)]

/-- A leaf outside the written index set keeps its value. -/
theorem setItem_get_not_mem (k : ℕ) (v : ℕ → τ) (idxs : List ℕ)
    (vals : List τ) (hidx : ∀ i ∈ idxs, i < 2 ^ k) {j : ℕ}
    (_hj : j < 2 ^ k) (hmem : j ∉ idxs) :
    setItem op k v idxs vals (2 ^ k + j) = v (2 ^ k + j) := by
  rw [setItem_leaf_eq_writeSeq op k v idxs vals hidx (by omega)]
  refine writeSeq_not_mem v _ vals (fun h => ?_)
  obtain ⟨i, hi, hij⟩ := List.mem_map.1 h
  have hji : j = i := by omega
  exact hmem (hji ▸ hi)

/-- A written leaf holds its value from the batch (indices distinct). -/
theorem setItem_get_mem (k : ℕ) (v : ℕ → τ) (idxs : List ℕ)
    (vals : List τ) (hidx : ∀ i ∈ idxs, i < 2 ^ k) (hnd : idxs.Nodup)
    (hlen : idxs.length = vals.length) :
    ∀ p ∈ idxs.zip vals, setItem op k v idxs vals (2 ^ k + p.1) = p.2 := by
  intro p hp
  have hp1 : p.1 ∈ idxs := (List.of_mem_zip hp).1
  rw [setItem_leaf_eq_writeSeq op k v idxs vals hidx (by omega)]
  have hnd' : (idxs.map (2 ^ k + ·)).Nodup :=
    hnd.map (fun a b h => by omega)
  have hlen' : (idxs.map (2 ^ k + ·)).length = vals.length := by
    simpa using hlen
  have hzip : (2 ^ k + p.1, p.2) ∈ (idxs.map (2 ^ k + ·)).zip vals := by
    have := List.zip_map_left (2 ^ k + ·) idxs vals
    rw [this]
    exact List.mem_map.2 ⟨p, hp, rfl⟩
  exact writeSeq_zip v _ vals hnd' hlen' _ hzip

/-- Fold of `op` over the `len` consecutive node values starting at `lo`
(used to state what an aggregate node caches). -/
def leafFold (ne : τ) (v : ℕ → τ) (lo len : ℕ) : τ :=
  ((List.range len).map (fun i => v (lo + i))).foldr op ne

theorem foldr_op_init (ne c : τ)
    (hassoc : ∀ a b c, op (op a b) c = op a (op b c))
    (hl : ∀ x, op ne x = x) :
    ∀ l : List τ, l.foldr op c = op (l.foldr op ne) c := by
  intro l
  induction l with
  | nil => simp only [List.foldr]; exact (hl c).symm
  | cons x xs ih => simp only [List.foldr, ih, hassoc]

theorem leafFold_add_one (ne : τ)
    (hassoc : ∀ a b c, op (op a b) c = op a (op b c))
    (hl : ∀ x, op ne x = x) (hr : ∀ x, op x ne = x)
    (v : ℕ → τ) (lo a : ℕ) :
    leafFold op ne v lo (a + 1) = op (leafFold op ne v lo a) (v (lo + a)) := by
  unfold leafFold
  rw [List.range_succ, List.map_append, List.foldr_append]
  simp only [List.map_cons, List.map_nil, List.foldr_cons, List.foldr_nil, hr]
  exact foldr_op_init op ne (v (lo + a)) hassoc hl _

theorem leafFold_split (ne : τ)
    (hassoc : ∀ a b c, op (op a b) c = op a (op b c))
    (hl : ∀ x, op ne x = x) (hr : ∀ x, op x ne = x) (v : ℕ → τ) (lo : ℕ) :
    ∀ a b : ℕ, leafFold op ne v lo (a + b) =
      op (leafFold op ne v lo a) (leafFold op ne v (lo + a) b) := by
  intro a b
  induction b with
  | zero => simp [leafFold, hr]
  | succ b ih =>
    have h1 : a + (b + 1) = (a + b) + 1 := by omega
    have h2 : lo + (a + b) = lo + a + b := by omega
    rw [h1, leafFold_add_one op ne hassoc hl hr,
      leafFold_add_one op ne hassoc hl hr, ih, hassoc, h2]

/-- Under the internal-node invariant, a node whose subtree spans the
leaf-level interval `[n * 2 ^ m, (n + 1) * 2 ^ m)` caches the fold of
`op` over those leaves. -/
theorem val_subtree (ne : τ)
    (hassoc : ∀ a b c, op (op a b) c = op a (op b c))
    (hl : ∀ x, op ne x = x) (hr : ∀ x, op x ne = x)
    (k : ℕ) (v : ℕ → τ) (hinv : parentInv op k v) :
    ∀ m n, 2 ^ k ≤ n * 2 ^ m → (n + 1) * 2 ^ m ≤ 2 ^ (k + 1) →
      v n = leafFold op ne v (n * 2 ^ m) (2 ^ m) := by
  intro m
  induction m with
  | zero =>
    intro n _ _
    have hr1 : List.range 1 = [0] := rfl
    simp [leafFold, hr1, hr]
  | succ m ih =>
    intro n hlo hhi
    have hmpos : 0 < 2 ^ (m + 1) := Nat.pos_pow_of_pos _ (by norm_num)
    have hn1 : 1 ≤ n := by
      rcases Nat.eq_zero_or_pos n with h | h
      · subst h
        simp only [Nat.zero_mul] at hlo
        have := Nat.pos_pow_of_pos k (show 0 < 2 by norm_num)
        omega
      · exact h
    have hnk : n < 2 ^ k := by
      by_contra hcon
      push_neg at hcon
      have h2 : (2 : ℕ) ≤ 2 ^ (m + 1) := by
        have := Nat.pow_le_pow_right (show 1 ≤ 2 by norm_num)
          (show 1 ≤ m + 1 by omega)
        simpa using this
      have h4 : (n + 1) * 2 ≤ (n + 1) * 2 ^ (m + 1) :=
        Nat.mul_le_mul_left _ h2
      have h5 : 2 ^ (k + 1) = 2 ^ k * 2 := by ring
      omega
    have hL : v (2 * n) = leafFold op ne v ((2 * n) * 2 ^ m) (2 ^ m) := by
      refine ih (2 * n) ?_ ?_
      · have e : (2 * n) * 2 ^ m = n * 2 ^ (m + 1) := by ring
        omega
      · have e1 : (2 * n + 1) * 2 ^ m + 2 ^ m = (n + 1) * 2 ^ (m + 1) := by ring
        have e2 : 0 < 2 ^ m := Nat.pos_pow_of_pos _ (by norm_num)
        omega
    have hR : v (2 * n + 1) = leafFold op ne v ((2 * n + 1) * 2 ^ m) (2 ^ m) := by
      refine ih (2 * n + 1) ?_ ?_
      · have e2 : (2 * n) * 2 ^ m = n * 2 ^ (m + 1) := by ring
        have e3 : (2 * n + 1) * 2 ^ m = (2 * n) * 2 ^ m + 2 ^ m := by ring
        omega
      · have e4 : (2 * n + 1 + 1) * 2 ^ m = (n + 1) * 2 ^ (m + 1) := by ring
        omega
    rw [hinv n hn1 hnk, hL, hR]
    have e2 : (2 * n) * 2 ^ m = n * 2 ^ (m + 1) := by ring
    have e3 : (2 * n + 1) * 2 ^ m = n * 2 ^ (m + 1) + 2 ^ m := by ring
    rw [e2, e3,
      ← leafFold_split op ne hassoc hl hr v (n * 2 ^ (m + 1)) (2 ^ m) (2 ^ m)]
    have e1 : (2 : ℕ) ^ m + 2 ^ m = 2 ^ (m + 1) := by ring
    rw [e1]

theorem leafFold_sum {σ : Type} [AddCommMonoid σ] (v : ℕ → σ) (lo : ℕ) :
    ∀ len, leafFold (· + ·) 0 v lo len = ∑ i ∈ Finset.range len, v (lo + i) := by
  intro len
  induction len with
  | zero => simp [leafFold]
  | succ n ih =>
    rw [leafFold_add_one _ _ (fun a b c => add_assoc a b c)
      (fun x => zero_add x) (fun x => add_zero x), ih,
      Finset.sum_range_succ]

/-- Root value of a sum tree satisfying the invariant: total of all leaves. -/
theorem root_eq_leafSum {σ : Type} [AddCommMonoid σ] (k : ℕ) (v : ℕ → σ)
    (hinv : parentInv (· + ·) k v) :
    v 1 = ∑ i ∈ Finset.range (2 ^ k), v (2 ^ k + i) := by
  have h := val_subtree (· + ·) 0 (fun a b c => add_assoc a b c)
    (fun x => zero_add x) (fun x => add_zero x) k v hinv k 1 (by omega)
    (by have : (1 + 1) * 2 ^ k = 2 ^ (k + 1) := by ring
        omega)
  rw [h, leafFold_sum]
  simp

/-- `SegmentTree._reduce_helper`.  Python integers are embedded as `ℤ`
(a degenerate query can make `end` equal to `-1`); the explicit fuel
models the recursion: running out of fuel (`none`) corresponds to the
unbounded recursion such a degenerate query actually triggers. -/
def reduceHelper (v : ℕ → τ) :
    ℕ → ℤ → ℤ → ℕ → ℤ → ℤ → Option τ
  | 0, _, _, _, _, _ => none
  | fuel + 1, start, stop, node, nodeStart, nodeEnd =>
    if start = nodeStart ∧ stop = nodeEnd then some (v node)
    else
      let mid := (nodeStart + nodeEnd) / 2
      if stop ≤ mid then
        reduceHelper v fuel start stop (2 * node) nodeStart mid
      else if mid + 1 ≤ start then
        reduceHelper v fuel start stop (2 * node + 1) (mid + 1) nodeEnd
      else
        (reduceHelper v fuel start mid (2 * node) nodeStart mid).bind fun a =>
          (reduceHelper v fuel (mid + 1) stop (2 * node + 1) (mid + 1)
            nodeEnd).map fun b => op a b

/-- `SegmentTree.reduce(start, end)`: `end = None` defaults to the
capacity, negative `end` wraps, then `end -= 1` makes it inclusive. -/
def reduceT (k : ℕ) (v : ℕ → τ) (start : ℤ) (endOpt : Option ℤ) : Option τ :=
  let e0 : ℤ := match endOpt with
    | none => 2 ^ k
    | some e => if e < 0 then e + 2 ^ k else e
  reduceHelper op v (k + 1) start (e0 - 1) 1 0 ((2 ^ k : ℤ) - 1)

/-- `reduce` with default arguments returns the cached root value (this is
what `SumSegmentTree.sum()` and `MinSegmentTree.min()` call). -/
theorem reduceT_default (k : ℕ) (v : ℕ → τ) :
    reduceT op k v 0 none = some (v 1) := by
  unfold reduceT
  rw [reduceHelper]
  simp

/-- `reduce(0, capacity)` likewise returns the root. -/
theorem reduceT_full (k : ℕ) (v : ℕ → τ) :
    reduceT op k v 0 (some (2 ^ k)) = some (v 1) := by
  unfold reduceT
  rw [reduceHelper]
  have h2 : ¬((2 : ℤ) ^ k < 0) := not_lt.2 (by positivity)
  simp [h2]

/-- Correctness of `_reduce_helper` on left-aligned queries (the shape the
replay buffer uses: `start` equal to the node's left edge), for a sum
tree.  The subtree of `node` spans leaf positions `[b, b + 2 ^ m)`. -/
theorem reduceHelper_leftAligned {σ : Type} [AddCommMonoid σ]
    (k : ℕ) (v : ℕ → σ) (hinv : parentInv (· + ·) k v) :
    ∀ (m node b en fuel : ℕ), m < fuel →
      node * 2 ^ m = 2 ^ k + b →
      (node + 1) * 2 ^ m ≤ 2 ^ (k + 1) →
      b ≤ en → en < b + 2 ^ m →
      reduceHelper (· + ·) v fuel (b : ℤ) (en : ℤ) node (b : ℤ)
          ((b : ℤ) + 2 ^ m - 1) =
        some (∑ i ∈ Finset.range (en + 1 - b), v (2 ^ k + b + i)) := by
  intro m
  induction m with
  | zero =>
    intro node b en fuel hfuel halign _ hble henb
    obtain ⟨f, rfl⟩ : ∃ f, fuel = f + 1 := ⟨fuel - 1, by omega⟩
    have heb : en = b := by omega
    subst heb
    rw [reduceHelper]
    have hcond : (en : ℤ) = en ∧ (en : ℤ) = (en : ℤ) + 2 ^ 0 - 1 := by
      constructor <;> simp
    rw [if_pos hcond]
    have hnode : node = 2 ^ k + en := by
      have := halign
      simpa using this
    rw [hnode]
    simp
  | succ m ih =>
    intro node b en fuel hfuel halign hin hble henb
    obtain ⟨f, rfl⟩ : ∃ f, fuel = f + 1 := ⟨fuel - 1, by omega⟩
    have hf : m < f := by omega
    have hm1 : (0 : ℕ) < 2 ^ m := Nat.pos_pow_of_pos _ (by norm_num)
    have hpow : (2 : ℕ) ^ (m + 1) = 2 ^ m + 2 ^ m := by ring
    rw [reduceHelper]
    by_cases hend : en = b + 2 ^ (m + 1) - 1
    · -- query exactly covers the node: return the cached value
      have hcond : (b : ℤ) = (b : ℤ) ∧
          (en : ℤ) = (b : ℤ) + 2 ^ (m + 1) - 1 := by
        refine ⟨rfl, ?_⟩
        have h2 : ((2 : ℤ) ^ (m + 1)) = ((2 ^ (m + 1) : ℕ) : ℤ) := by
          push_cast
          ring
        rw [h2]
        omega
      rw [if_pos hcond]
      have hsub := val_subtree (· + ·) (0 : σ) (fun a b c => add_assoc a b c)
        (fun x => zero_add x) (fun x => add_zero x) k v hinv (m + 1) node
        (by omega) hin
      rw [hsub, leafFold_sum]
      have hc1 : en + 1 - b = 2 ^ (m + 1) := by omega
      congr 1
      rw [hc1]
      refine Finset.sum_congr rfl (fun i _ => ?_)
      congr 1
      omega
    · -- strict sub-range: recurse
      have hcond : ¬((b : ℤ) = (b : ℤ) ∧
          (en : ℤ) = (b : ℤ) + 2 ^ (m + 1) - 1) := by
        rintro ⟨-, h⟩
        apply hend
        have h2 : ((2 : ℤ) ^ (m + 1)) = ((2 ^ (m + 1) : ℕ) : ℤ) := by
          push_cast
          ring
        rw [h2] at h
        omega
      rw [if_neg hcond]
      have hmid : ((b : ℤ) + ((b : ℤ) + 2 ^ (m + 1) - 1)) / 2 =
          (b : ℤ) + 2 ^ m - 1 := by
        have h2 : ((2 : ℤ) ^ (m + 1)) = 2 * 2 ^ m := by ring
        rw [h2]
        omega
      rw [hmid]
      by_cases hsplit : en ≤ b + 2 ^ m - 1
      · -- descend left
        have hle : (en : ℤ) ≤ (b : ℤ) + 2 ^ m - 1 := by
          have h2 : ((2 : ℤ) ^ m) = ((2 ^ m : ℕ) : ℤ) := by push_cast; ring
          rw [h2]
          omega
        rw [if_pos hle]
        have := ih (2 * node) b en f hf
          (by have e : 2 * node * 2 ^ m = node * 2 ^ (m + 1) := by ring
              omega)
          (by have e : (2 * node + 1) * 2 ^ m + 2 ^ m = (node + 1) * 2 ^ (m + 1) := by
                ring
              omega)
          hble (by omega)
        exact this
      · -- combine the full left child with a left-aligned right query
        have hgt : ¬((en : ℤ) ≤ (b : ℤ) + 2 ^ m - 1) := by
          have h2 : ((2 : ℤ) ^ m) = ((2 ^ m : ℕ) : ℤ) := by push_cast; ring
          rw [h2]
          omega
        rw [if_neg hgt]
        have hstart : ¬((b : ℤ) + 2 ^ m - 1 + 1 ≤ (b : ℤ)) := by
          have h2 : ((2 : ℤ) ^ m) = ((2 ^ m : ℕ) : ℤ) := by push_cast; ring
          rw [h2]
          omega
        rw [if_neg hstart]
        have hLalign : 2 * node * 2 ^ m = 2 ^ k + b := by
          have e : 2 * node * 2 ^ m = node * 2 ^ (m + 1) := by ring
          omega
        have hLin : (2 * node + 1) * 2 ^ m ≤ 2 ^ (k + 1) := by
          have e : (2 * node + 1) * 2 ^ m + 2 ^ m = (node + 1) * 2 ^ (m + 1) := by
            ring
          omega
        have hLeft := ih (2 * node) b (b + 2 ^ m - 1) f hf hLalign hLin
          (by omega) (by omega)
        have hRalign : (2 * node + 1) * 2 ^ m = 2 ^ k + (b + 2 ^ m) := by
          have e : (2 * node + 1) * 2 ^ m = node * 2 ^ (m + 1) + 2 ^ m := by ring
          omega
        have hRin : (2 * node + 1 + 1) * 2 ^ m ≤ 2 ^ (k + 1) := by
          have e : (2 * node + 1 + 1) * 2 ^ m = (node + 1) * 2 ^ (m + 1) := by
            ring
          omega
        have hRight := ih (2 * node + 1) (b + 2 ^ m) en f hf hRalign hRin
          (by omega) (by omega)
        have hcL : ((b + 2 ^ m - 1 : ℕ) : ℤ) = (b : ℤ) + 2 ^ m - 1 := by
          have h1 : (1 : ℕ) ≤ b + 2 ^ m := by omega
          push_cast [h1]
          ring
        have hcR : ((b + 2 ^ m : ℕ) : ℤ) = (b : ℤ) + 2 ^ m - 1 + 1 := by
          push_cast
          ring
        rw [hcL] at hLeft
        rw [hcR] at hRight
        have hcE2 : (b : ℤ) + 2 ^ m - 1 + 1 + 2 ^ m - 1 =
            (b : ℤ) + 2 ^ (m + 1) - 1 := by ring
        rw [hcE2] at hRight
        rw [hLeft, hRight]
        simp only [Option.some_bind, Option.map_some']
        have hsum := Finset.sum_range_add (fun i => v (2 ^ k + b + i))
          (2 ^ m) (en + 1 - (b + 2 ^ m))
        have hcount : 2 ^ m + (en + 1 - (b + 2 ^ m)) = en + 1 - b := by
          omega
        rw [hcount] at hsum
        have hc1 : b + 2 ^ m - 1 + 1 - b = 2 ^ m := by omega
        have hreindex : ∑ i ∈ Finset.range (en + 1 - (b + 2 ^ m)),
            v (2 ^ k + (b + 2 ^ m) + i) =
            ∑ i ∈ Finset.range (en + 1 - (b + 2 ^ m)),
            v (2 ^ k + b + (2 ^ m + i)) :=
          Finset.sum_congr rfl (fun i _ => by congr 1; omega)
        rw [hc1, hreindex, ← hsum]

end Tree

section Find

variable {γ : Type} [LinearOrderedField γ]

/-- One vectorized iteration of `find_prefixsum_idx`.  All numpy
expressions in the loop body are elementwise, so the iteration acts
independently on the `(idx, prefixsum)` state of each batch entry;
`cont` is `idx < capacity` recomputed from the entry's own index. -/
def findStep (k : ℕ) (v : ℕ → γ) (s : ℕ × γ) : ℕ × γ :=
  let idx1 := if s.1 < 2 ^ k then 2 * s.1 else s.1
  let pv := v idx1
  let t' := if pv ≤ s.2 then s.2 - pv else s.2
  let idx2 := if s.2 < pv ∨ ¬s.1 < 2 ^ k then idx1 else idx1 + 1
  (idx2, t')

/-- The `while np.any(cont)` loop on a capacity ≥ 2 tree, with fuel
(each entry descends one level per iteration, so `k + 1` iterations
always suffice).  Python initializes `cont` to all ones and recomputes
`cont = idx < self._capacity` at the END of each iteration; this
embedding tests `idx < capacity` BEFORE each iteration instead.  The two
coincide from the entry state of every real call — all indices start at
the root `idx = 1`, and `1 < capacity` holds on every capacity ≥ 2
tree, so the first iteration runs under both conventions and all later
guards are literally the same recomputed `cont`.  On the capacity-1
tree the conventions differ: Python's first iteration still runs
unconditionally and crashes on an out-of-bounds read, which
`findPrefixsumIdx` models before reaching this loop. -/
def findLoop (k : ℕ) (v : ℕ → γ) : ℕ → List (ℕ × γ) → List (ℕ × γ)
  | 0, ss => ss
  | fuel + 1, ss =>
    if ss.any (fun s => decide (s.1 < 2 ^ k)) then
      findLoop k v fuel (ss.map (findStep k v))
    else ss

/-- `find_prefixsum_idx` without its entry assertions, on a capacity ≥ 2
tree (where the loop raises no IndexError): every descent starts at the
root (node 1), and the final leaf node indices are shifted back by the
capacity. -/
def findCore (k : ℕ) (v : ℕ → γ) (ts : List γ) : List ℕ :=
  (findLoop k v (k + 1) (ts.map (fun t => (1, t)))).map (fun s => s.1 - 2 ^ k)

/-- `np.min` on a non-empty array (the default is irrelevant then). -/
def npMinD (l : List γ) (dflt : γ) : γ := l.foldl min (l.headD dflt)

/-- `np.max` on a non-empty array (the default is irrelevant then). -/
def npMaxD (l : List γ) (dflt : γ) : γ := l.foldl max (l.headD dflt)

/-- `find_prefixsum_idx` with its entry assertions: the batch must be
non-empty (`np.min` raises on an empty array and `prefixsum[0]` is
read), every target nonnegative, and no target may exceed
`sum() + 1e-5`, where `sum()` returns the root's cached value
(`reduceT_default`).  After the assertions, `cont` starts as all ones,
so on a non-empty batch the loop's FIRST iteration runs
unconditionally: it doubles every index from `1` to `2` and reads
`self._value[2 * idx]`; `_value` has length `2 * capacity = 2 ^ (k+1)`,
so on a capacity-1 tree that read is out of bounds and raises
IndexError (modeled as `none`).  On a capacity ≥ 2 tree the read is in
bounds, every later iteration touches only nodes below `2 ^ (k + 1)`
(continuing lanes have `idx < capacity`, frozen lanes sit at leaves),
and the loop is `findCore`. -/
def findPrefixsumIdx (k : ℕ) (v : ℕ → γ) (ts : List γ) : Option (List ℕ) :=
  if ts = [] then none
  else if 0 ≤ npMinD ts 0 ∧ npMaxD ts 0 ≤ v 1 + 1 / 100000 then
    if 2 * 1 < 2 ^ (k + 1) then some (findCore k v ts)
    else none
  else none

/-- Scalar descent: what the vectorized loop does to a single entry. -/
def descend (k : ℕ) (v : ℕ → γ) : ℕ → (ℕ × γ) → (ℕ × γ)
  | 0, s => s
  | fuel + 1, s =>
    if s.1 < 2 ^ k then descend k v fuel (findStep k v s) else s

theorem findStep_depth (k : ℕ) (v : ℕ → γ) (s : ℕ × γ) {d : ℕ}
    (hdk : d < k) (hlo : 2 ^ d ≤ s.1) (hhi : s.1 < 2 ^ (d + 1)) :
    2 ^ (d + 1) ≤ (findStep k v s).1 ∧ (findStep k v s).1 < 2 ^ (d + 1 + 1) := by
  have hcont : s.1 < 2 ^ k := by
    have h1 : (2 : ℕ) ^ (d + 1) ≤ 2 ^ k := Nat.pow_le_pow_right (by norm_num) (by omega)
    omega
  unfold findStep
  simp only [if_pos hcont]
  have e1 : (2 : ℕ) ^ (d + 1) = 2 * 2 ^ d := by ring
  have e2 : (2 : ℕ) ^ (d + 1 + 1) = 2 * 2 ^ (d + 1) := by ring
  by_cases hb : s.2 < v (2 * s.1) ∨ ¬s.1 < 2 ^ k
  · simp only [if_pos hb]
    omega
  · simp only [if_neg hb]
    omega

theorem findStep_frozen (k : ℕ) (v : ℕ → γ) (s : ℕ × γ)
    (hs : ¬s.1 < 2 ^ k) : (findStep k v s).1 = s.1 := by
  unfold findStep
  simp only [if_neg hs, if_pos (Or.inr hs)]

/-- With all entries at a common depth — which is the case for every real
call, since all descents start at the root — the vectorized loop is
exactly the scalar descent mapped over the batch: entries cannot
contaminate each other. -/
theorem findLoop_eq_map (k : ℕ) (v : ℕ → γ) :
    ∀ (fuel d : ℕ), d ≤ k → ∀ ss : List (ℕ × γ),
      (∀ s ∈ ss, 2 ^ d ≤ s.1 ∧ s.1 < 2 ^ (d + 1)) →
      findLoop k v fuel ss = ss.map (descend k v fuel) := by
  intro fuel
  induction fuel with
  | zero =>
    intro d _ ss _
    rw [findLoop]
    have h1 : ss.map (descend k v 0) = ss.map id :=
      List.map_congr_left (fun s _ => rfl)
    rw [h1, List.map_id]
  | succ fuel ih =>
    intro d hd ss hss
    rw [findLoop]
    by_cases hany : ss.any (fun s => decide (s.1 < 2 ^ k)) = true
    · obtain ⟨s0, hs0, hs0c⟩ := List.any_eq_true.1 hany
      have hs0k : s0.1 < 2 ^ k := of_decide_eq_true hs0c
      have hdk : d < k := by
        by_contra hge
        push_neg at hge
        have h3 : 2 ^ k ≤ 2 ^ d := Nat.pow_le_pow_right (by norm_num) hge
        have h4 := (hss s0 hs0).1
        omega
      rw [if_pos hany]
      have hstep : ∀ s ∈ ss.map (findStep k v),
          2 ^ (d + 1) ≤ s.1 ∧ s.1 < 2 ^ (d + 1 + 1) := by
        intro s' hs'
        obtain ⟨s, hs, rfl⟩ := List.mem_map.1 hs'
        exact findStep_depth k v s hdk (hss s hs).1 (hss s hs).2
      rw [ih (d + 1) (by omega) _ hstep, List.map_map]
      refine List.map_congr_left (fun s hs => ?_)
      have hcont : s.1 < 2 ^ k := by
        have h1 : (2 : ℕ) ^ (d + 1) ≤ 2 ^ k :=
          Nat.pow_le_pow_right (by norm_num) (by omega)
        have h2 := (hss s hs).2
        omega
      show descend k v fuel (findStep k v s) = descend k v (fuel + 1) s
      rw [descend, if_pos hcont]
    · rw [if_neg hany]
      have hfroz : ∀ s ∈ ss, ¬s.1 < 2 ^ k := by
        intro s hs hlt
        exact hany (List.any_eq_true.2 ⟨s, hs, decide_eq_true hlt⟩)
      have h1 : ss.map (descend k v (fuel + 1)) = ss.map id :=
        List.map_congr_left (fun s hs => by
          rw [descend, if_neg (hfroz s hs)]; rfl)
      rw [h1, List.map_id]

/-- Correctness of the scalar descent: started at a node whose subtree
spans leaf positions `[node * 2 ^ m, (node + 1) * 2 ^ m)` with a target
below the node's cached value, it stops at a leaf whose prefix-sum range
straddles the target.  (No positivity of the leaves is needed here.) -/
theorem descend_correct (k : ℕ) (v : ℕ → γ) (hinv : parentInv (· + ·) k v) :
    ∀ (m node : ℕ) (t : γ) (fuel : ℕ), m ≤ fuel →
      2 ^ k ≤ node * 2 ^ m → (node + 1) * 2 ^ m ≤ 2 ^ (k + 1) →
      0 ≤ t → t < v node →
      node * 2 ^ m ≤ (descend k v fuel (node, t)).1 ∧
      (descend k v fuel (node, t)).1 < (node + 1) * 2 ^ m ∧
      (∑ i ∈ Finset.range ((descend k v fuel (node, t)).1 - node * 2 ^ m),
        v (node * 2 ^ m + i)) ≤ t ∧
      t < ∑ i ∈ Finset.range
          ((descend k v fuel (node, t)).1 - node * 2 ^ m + 1),
        v (node * 2 ^ m + i) := by
  intro m
  induction m with
  | zero =>
    intro node t fuel _ hlo hhi h0 ht
    have hnode : 2 ^ k ≤ node := by simpa using hlo
    have hfroz : ¬node < 2 ^ k := by omega
    have hres : descend k v fuel (node, t) = (node, t) := by
      cases fuel with
      | zero => rfl
      | succ f => rw [descend, if_neg hfroz]
    rw [hres]
    have hr1 : List.range 1 = [0] := rfl
    refine ⟨by omega, by omega, by simpa using h0, ?_⟩
    have e : node - node * 2 ^ 0 + 1 = 1 := by omega
    simp only [pow_zero, Nat.mul_one] at *
    have e2 : node - node + 1 = 1 := by omega
    rw [e2]
    rw [Finset.sum_range_one]
    simpa using ht
  | succ m ih =>
    intro node t fuel hfuel hlo hhi h0 ht
    obtain ⟨f, rfl⟩ : ∃ f, fuel = f + 1 := ⟨fuel - 1, by omega⟩
    have hf : m ≤ f := by omega
    have hmpos : (0 : ℕ) < 2 ^ m := Nat.pos_pow_of_pos _ (by norm_num)
    have hn1 : 1 ≤ node := by
      rcases Nat.eq_zero_or_pos node with h | h
      · subst h
        simp only [Nat.zero_mul] at hlo
        have := Nat.pos_pow_of_pos k (show 0 < 2 by norm_num)
        omega
      · exact h
    have hnk : node < 2 ^ k := by
      by_contra hcon
      push_neg at hcon
      have h2 : (2 : ℕ) ≤ 2 ^ (m + 1) := by
        have := Nat.pow_le_pow_right (show 1 ≤ 2 by norm_num)
          (show 1 ≤ m + 1 by omega)
        simpa using this
      have h4 : (node + 1) * 2 ≤ (node + 1) * 2 ^ (m + 1) :=
        Nat.mul_le_mul_left _ h2
      have h5 : 2 ^ (k + 1) = 2 ^ k * 2 := by ring
      omega
    have hsplit : v node = v (2 * node) + v (2 * node + 1) := hinv node hn1 hnk
    have hpow : (2 : ℕ) ^ (m + 1) = 2 ^ m + 2 ^ m := by ring
    have hexp : (node + 1) * 2 ^ (m + 1) =
        node * 2 ^ (m + 1) + 2 ^ (m + 1) := by ring
    rw [descend, if_pos hnk]
    have hstep : findStep k v (node, t) =
        if t < v (2 * node) then (2 * node, t)
        else (2 * node + 1, t - v (2 * node)) := by
      unfold findStep
      simp only [if_pos hnk]
      by_cases hc : t < v (2 * node)
      · have hc' : ¬v (2 * node) ≤ t := not_le.2 hc
        simp only [if_pos hc, if_neg hc', if_pos (Or.inl hc)]
      · have hc' : v (2 * node) ≤ t := not_lt.1 hc
        have hc'' : ¬(t < v (2 * node) ∨ ¬node < 2 ^ k) := by
          push_neg
          exact ⟨hc', hnk⟩
        simp only [if_pos hc', if_neg hc'', if_neg hc]
    -- subtree bounds for both children
    have eL : 2 * node * 2 ^ m = node * 2 ^ (m + 1) := by ring
    have eR : (2 * node + 1) * 2 ^ m = node * 2 ^ (m + 1) + 2 ^ m := by ring
    have eR2 : (2 * node + 1 + 1) * 2 ^ m = (node + 1) * 2 ^ (m + 1) := by ring
    have hvL : v (2 * node) =
        ∑ i ∈ Finset.range (2 ^ m), v (node * 2 ^ (m + 1) + i) := by
      have h := val_subtree (· + ·) (0 : γ) (fun a b c => add_assoc a b c)
        (fun x => zero_add x) (fun x => add_zero x) k v hinv m (2 * node)
        (by omega) (by omega)
      rw [h, leafFold_sum, eL]
    by_cases hc : t < v (2 * node)
    · -- descend left
      rw [hstep, if_pos hc]
      have := ih (2 * node) t f hf (by omega) (by omega) h0 hc
      rw [eL] at this
      obtain ⟨c1, c2, c3, c4⟩ := this
      refine ⟨by omega, by omega, c3, c4⟩
    · -- descend right with the left child's mass subtracted
      rw [hstep, if_neg hc]
      have hc' : v (2 * node) ≤ t := not_lt.1 hc
      have ht' : t - v (2 * node) < v (2 * node + 1) := by
        have : t < v (2 * node) + v (2 * node + 1) := by
          rw [← hsplit]; exact ht
        linarith
      have h0' : (0 : γ) ≤ t - v (2 * node) := by linarith
      have := ih (2 * node + 1) (t - v (2 * node)) f hf (by omega) (by omega)
        h0' ht'
      obtain ⟨c1, c2, c3, c4⟩ := this
      set r := (descend k v f (2 * node + 1, t - v (2 * node))).1 with hr
      rw [eR] at c1 c3 c4
      rw [eR2] at c2
      have hb : node * 2 ^ (m + 1) + 2 ^ m ≤ r := c1
      refine ⟨by omega, by omega, ?_, ?_⟩
      · -- prefix up to r from the parent's base
        have hcount : 2 ^ m + (r - (node * 2 ^ (m + 1) + 2 ^ m)) =
            r - node * 2 ^ (m + 1) := by omega
        have hsum := Finset.sum_range_add
          (fun i => v (node * 2 ^ (m + 1) + i)) (2 ^ m)
          (r - (node * 2 ^ (m + 1) + 2 ^ m))
        rw [hcount] at hsum
        rw [hsum, ← hvL]
        have hre : ∑ i ∈ Finset.range (r - (node * 2 ^ (m + 1) + 2 ^ m)),
            v (node * 2 ^ (m + 1) + (2 ^ m + i)) =
            ∑ i ∈ Finset.range (r - (node * 2 ^ (m + 1) + 2 ^ m)),
            v (node * 2 ^ (m + 1) + 2 ^ m + i) :=
          Finset.sum_congr rfl (fun i _ => by congr 1; omega)
        rw [hre]
        linarith
      · have hcount : 2 ^ m + (r - (node * 2 ^ (m + 1) + 2 ^ m) + 1) =
            r - node * 2 ^ (m + 1) + 1 := by omega
        have hsum := Finset.sum_range_add
          (fun i => v (node * 2 ^ (m + 1) + i)) (2 ^ m)
          (r - (node * 2 ^ (m + 1) + 2 ^ m) + 1)
        rw [hcount] at hsum
        rw [hsum, ← hvL]
        have hre : ∑ i ∈ Finset.range (r - (node * 2 ^ (m + 1) + 2 ^ m) + 1),
            v (node * 2 ^ (m + 1) + (2 ^ m + i)) =
            ∑ i ∈ Finset.range (r - (node * 2 ^ (m + 1) + 2 ^ m) + 1),
            v (node * 2 ^ (m + 1) + 2 ^ m + i) :=
          Finset.sum_congr rfl (fun i _ => by congr 1; omega)
        rw [hre]
        linarith

/-- Cumulative sum of the first `j` leaves. -/
def prefixSum (k : ℕ) (v : ℕ → γ) (j : ℕ) : γ :=
  ∑ i ∈ Finset.range j, v (2 ^ k + i)

theorem foldl_max_le {B acc : γ} {l : List γ} (hacc : acc ≤ B)
    (h : ∀ x ∈ l, x ≤ B) : l.foldl max acc ≤ B := by
  induction l generalizing acc with
  | nil => exact hacc
  | cons x xs ih =>
    exact ih (max_le hacc (h x (by simp))) (fun y hy => h y (by simp [hy]))

theorem le_foldl_min {B acc : γ} {l : List γ} (hacc : B ≤ acc)
    (h : ∀ x ∈ l, B ≤ x) : B ≤ l.foldl min acc := by
  induction l generalizing acc with
  | nil => exact hacc
  | cons x xs ih =>
    exact ih (le_min hacc (h x (by simp))) (fun y hy => h y (by simp [hy]))

theorem npMaxD_le {l : List γ} {d B : γ} (hne : l ≠ [])
    (h : ∀ x ∈ l, x ≤ B) : npMaxD l d ≤ B := by
  cases l with
  | nil => exact absurd rfl hne
  | cons a rest =>
    exact foldl_max_le (h a (by simp)) (fun y hy => h y (by simp [hy]))

theorem le_npMinD {l : List γ} {d B : γ} (hne : l ≠ [])
    (h : ∀ x ∈ l, B ≤ x) : B ≤ npMinD l d := by
  cases l with
  | nil => exact absurd rfl hne
  | cons a rest =>
    exact le_foldl_min (h a (by simp)) (fun y hy => h y (by simp [hy]))

theorem prefixSum_mono (k : ℕ) (v : ℕ → γ)
    (hnn : ∀ i, i < 2 ^ k → 0 ≤ v (2 ^ k + i)) {a b : ℕ}
    (hab : a ≤ b) (hb : b ≤ 2 ^ k) : prefixSum k v a ≤ prefixSum k v b := by
  unfold prefixSum
  refine Finset.sum_le_sum_of_subset_of_nonneg
    (Finset.range_subset.2 hab) (fun i hi _ => ?_)
  exact hnn i (by have := Finset.mem_range.1 hi; omega)

/-- With nonnegative leaves, at most one leaf's cumulative range
straddles a given target. -/
theorem straddle_unique (k : ℕ) (v : ℕ → γ)
    (hnn : ∀ i, i < 2 ^ k → 0 ≤ v (2 ^ k + i)) {t : γ} {r j : ℕ}
    (hrk : r < 2 ^ k) (hjk : j < 2 ^ k)
    (hr1 : prefixSum k v r ≤ t) (hr2 : t < prefixSum k v (r + 1))
    (hj1 : prefixSum k v j ≤ t) (hj2 : t < prefixSum k v (j + 1)) :
    j = r := by
  by_contra hne
  rcases Nat.lt_or_ge j r with h | h
  · have : prefixSum k v (j + 1) ≤ prefixSum k v r :=
      prefixSum_mono k v hnn (by omega) (by omega)
    linarith
  · have hjr : r < j := by omega
    have : prefixSum k v (r + 1) ≤ prefixSum k v j :=
      prefixSum_mono k v hnn (by omega) (by omega)
    linarith

theorem zip_map_mem {α β : Type} (l : List α) (f : α → β) :
    ∀ p ∈ l.zip (l.map f), p.2 = f p.1 ∧ p.1 ∈ l := by
  induction l with
  | nil => intro p hp; simp at hp
  | cons a rest ih =>
    intro p hp
    simp only [List.map_cons, List.zip_cons_cons, List.mem_cons] at hp
    rcases hp with rfl | hp
    · exact ⟨rfl, by simp⟩
    · obtain ⟨h1, h2⟩ := ih p hp
      exact ⟨h1, by simp [h2]⟩

end Find

section ClaimC1

/-- Full specification of `find_prefixsum_idx` on a capacity ≥ 2 tree
and targets strictly below the total mass: assertions pass, the first
iteration's read is in bounds, and every returned index is the unique
straddling leaf. -/
theorem findPrefixsumIdx_spec {γ : Type} [LinearOrderedField γ]
    (k : ℕ) (v : ℕ → γ) (ts : List γ)
    (hk : 1 ≤ k)
    (hinv : parentInv (· + ·) k v)
    (hpos : ∀ i, i < 2 ^ k → 0 ≤ v (2 ^ k + i))
    (hne : ts ≠ [])
    (hts : ∀ t ∈ ts, 0 ≤ t ∧ t < prefixSum k v (2 ^ k)) :
    findPrefixsumIdx k v ts = some (findCore k v ts) ∧
    (findCore k v ts).length = ts.length ∧
    ∀ p ∈ ts.zip (findCore k v ts),
      p.2 < 2 ^ k ∧ prefixSum k v p.2 ≤ p.1 ∧
      p.1 < prefixSum k v (p.2 + 1) ∧
      ∀ j, j < 2 ^ k → prefixSum k v j ≤ p.1 →
        p.1 < prefixSum k v (j + 1) → j = p.2 := by
  have hroot : v 1 = prefixSum k v (2 ^ k) := root_eq_leafSum k v hinv
  have hk1 : (2 : ℕ) ^ (k + 1) = 2 ^ k + 2 ^ k := by ring
  have hmap0 : ∀ s ∈ ts.map (fun t => ((1 : ℕ), t)),
      2 ^ 0 ≤ s.1 ∧ s.1 < 2 ^ (0 + 1) := by
    intro s hs
    obtain ⟨t, _, rfl⟩ := List.mem_map.1 hs
    norm_num
  have hcore : findCore k v ts =
      ts.map (fun t => (descend k v (k + 1) (1, t)).1 - 2 ^ k) := by
    unfold findCore
    rw [findLoop_eq_map k v (k + 1) 0 (by omega) _ hmap0, List.map_map,
      List.map_map]
    rfl
  refine ⟨?_, ?_, ?_⟩
  · have hcap : 2 * 1 < 2 ^ (k + 1) := by
      have h1 : (2 : ℕ) ^ 2 ≤ 2 ^ (k + 1) :=
        Nat.pow_le_pow_right (by norm_num) (by omega)
      omega
    have hasserts : 0 ≤ npMinD ts 0 ∧ npMaxD ts 0 ≤ v 1 + 1 / 100000 := by
      refine ⟨le_npMinD hne (fun x hx => (hts x hx).1),
        npMaxD_le hne (fun x hx => ?_)⟩
      have h1 := (hts x hx).2
      rw [← hroot] at h1
      have h2 : (0 : γ) < 1 / 100000 := by norm_num
      linarith
    unfold findPrefixsumIdx
    rw [if_neg hne, if_pos hasserts, if_pos hcap]
  · rw [hcore, List.length_map]
  · intro p hp
    rw [hcore] at hp
    obtain ⟨hpf, hpmem⟩ := zip_map_mem ts _ p hp
    obtain ⟨h0, hlt⟩ := hts p.1 hpmem
    have hlt' : p.1 < v 1 := by rw [hroot]; exact hlt
    obtain ⟨c1, c2, c3, c4⟩ := descend_correct k v hinv k 1 p.1 (k + 1)
      (by omega) (by omega) (by omega) h0 hlt'
    simp only [one_mul] at c1 c2 c3 c4
    have c2' : (descend k v (k + 1) (1, p.1)).1 < 2 ^ k + 2 ^ k := by
      have h : (1 + 1) * 2 ^ k = 2 ^ k + 2 ^ k := by ring
      omega
    have hp2 : p.2 = (descend k v (k + 1) (1, p.1)).1 - 2 ^ k := hpf
    have hs1 : prefixSum k v p.2 ≤ p.1 := by rw [hp2]; exact c3
    have hs2 : p.1 < prefixSum k v (p.2 + 1) := by rw [hp2]; exact c4
    have hbound : p.2 < 2 ^ k := by omega
    refine ⟨hbound, hs1, hs2, fun j hj hj1 hj2 => ?_⟩
    exact straddle_unique k v hpos hbound hj hs1 hs2 hj1 hj2

/-- C1 (amended): for a CAPACITY ≥ 2 sum tree with strictly positive
leaves and a non-empty batch of targets each in `[0, total)` — strict at
the top — `find_prefixsum_idx` passes its assertions and returns, for
each target independently of the others, the unique leaf index whose
cumulative range straddles that target.  (The claim's closed interval
`0 ≤ t ≤ total` fails at `t = total`, and on a capacity-1 tree the
loop's unconditional first iteration reads `_value[2]` out of bounds
and raises IndexError instead of returning anything: see the
counterexample for both.) -/
theorem find_prefixsum_idx_straddles {γ : Type} [LinearOrderedField γ]
    (k : ℕ) (v : ℕ → γ) (ts : List γ)
    (hk : 1 ≤ k)
    (hinv : parentInv (· + ·) k v)
    (hpos : ∀ i, i < 2 ^ k → 0 < v (2 ^ k + i))
    (hne : ts ≠ [])
    (hts : ∀ t ∈ ts, 0 ≤ t ∧ t < prefixSum k v (2 ^ k)) :
    findPrefixsumIdx k v ts = some (findCore k v ts) ∧
    (findCore k v ts).length = ts.length ∧
    ∀ p ∈ ts.zip (findCore k v ts),
      p.2 < 2 ^ k ∧ prefixSum k v p.2 ≤ p.1 ∧
      p.1 < prefixSum k v (p.2 + 1) ∧
      ∀ j, j < 2 ^ k → prefixSum k v j ≤ p.1 →
        p.1 < prefixSum k v (j + 1) → j = p.2 :=
  findPrefixsumIdx_spec k v ts hk hinv (fun i hi => (hpos i hi).le) hne hts

/-- The four-leaf tree `[1, 2, 3, 4]` from the spec's boundary example
(`_value = [unused, 10, 3, 7, 1, 2, 3, 4]`). -/
def treeC1 : ℕ → ℚ := fun n => [0, 10, 3, 7, 1, 2, 3, 4].getD n 0

theorem treeC1_parentInv : parentInv (· + ·) 2 treeC1 := by
  intro n h1 h2
  interval_cases n <;> norm_num [treeC1]

theorem treeC1_pos : ∀ i, i < 2 ^ 2 → 0 < treeC1 (2 ^ 2 + i) := by
  intro i hi
  interval_cases i <;> norm_num [treeC1]

/-- C1 witness: the spec's boundary example.  For leaves `[1, 2, 3, 4]`
(cumulative `[1, 3, 6, 10]`), `find_prefixsum_idx([0, 2.9, 3.0, 9.9])`
returns `[0, 1, 2, 3]`, and each returned index straddles its target. -/
theorem find_prefixsum_idx_straddles_witness :
    parentInv (· + ·) 2 treeC1 ∧
    (∀ i, i < 2 ^ 2 → 0 < treeC1 (2 ^ 2 + i)) ∧
    (∀ t ∈ ([0, 29/10, 3, 99/10] : List ℚ),
      0 ≤ t ∧ t < prefixSum 2 treeC1 (2 ^ 2)) ∧
    findPrefixsumIdx 2 treeC1 [0, 29/10, 3, 99/10] = some [0, 1, 2, 3] ∧
    ∀ p ∈ ([0, 29/10, 3, 99/10] : List ℚ).zip
        (findCore 2 treeC1 [0, 29/10, 3, 99/10]),
      prefixSum 2 treeC1 p.2 ≤ p.1 ∧ p.1 < prefixSum 2 treeC1 (p.2 + 1) := by
  have h3 : ([0, 29/10, 3, 99/10] : List ℚ) ≠ [] := by simp
  have h4 : ∀ t ∈ ([0, 29/10, 3, 99/10] : List ℚ),
      0 ≤ t ∧ t < prefixSum 2 treeC1 (2 ^ 2) := by
    intro t ht
    have hp : prefixSum 2 treeC1 4 = 10 := by
      norm_num [prefixSum, Finset.sum_range_succ, treeC1]
    simp only [List.mem_cons, List.not_mem_nil, or_false] at ht
    rcases ht with rfl | rfl | rfl | rfl <;> norm_num [hp]
  have main := find_prefixsum_idx_straddles 2 treeC1 [0, 29/10, 3, 99/10]
    (by norm_num) treeC1_parentInv treeC1_pos h3 h4
  have hcore : findCore 2 treeC1 [0, 29/10, 3, 99/10] = [0, 1, 2, 3] := by
    norm_num [findCore, findLoop, findStep, treeC1]
  refine ⟨treeC1_parentInv, treeC1_pos, h4, ?_, ?_⟩
  · rw [main.1, hcore]
  · intro p hp
    obtain ⟨-, h1, h2, -⟩ := main.2.2 p hp
    exact ⟨h1, h2⟩

/-- C1 counterexample, two defects.  First, the claim admits any target
in `[0, total]`, but at `t = total = 10` the code returns leaf 3 whose
cumulative range `[6, 10)` does not straddle `10`: no leaf satisfies the
claimed characterization there.  Second, the claim covers every SumTree,
but on a capacity-1 tree (single positive leaf `5`, target `0` well
inside `[0, total]`) the loop's unconditional first iteration reads
`_value[2]` out of bounds and raises IndexError (`none`), returning no
index at all — even though leaf 0 straddles the target. -/
theorem find_prefixsum_idx_total_sum_counterexample :
    findPrefixsumIdx 2 treeC1 [(10 : ℚ)] = some [3] ∧
    ((0 : ℚ) ≤ 10 ∧ (10 : ℚ) ≤ prefixSum 2 treeC1 4) ∧
    ¬((10 : ℚ) < prefixSum 2 treeC1 (3 + 1)) ∧
    (∀ j, j < 4 →
      ¬(prefixSum 2 treeC1 j ≤ 10 ∧ (10 : ℚ) < prefixSum 2 treeC1 (j + 1))) ∧
    findPrefixsumIdx 0 (fun _ => (5 : ℚ)) [0] = none ∧
    (prefixSum 0 (fun _ => (5 : ℚ)) 0 ≤ 0 ∧
      (0 : ℚ) < prefixSum 0 (fun _ => (5 : ℚ)) 1) := by
  have h0 : prefixSum 2 treeC1 0 = 0 := by
    norm_num [prefixSum]
  have h1 : prefixSum 2 treeC1 1 = 1 := by
    norm_num [prefixSum, Finset.sum_range_succ, treeC1]
  have h2 : prefixSum 2 treeC1 2 = 3 := by
    norm_num [prefixSum, Finset.sum_range_succ, treeC1]
  have h3 : prefixSum 2 treeC1 3 = 6 := by
    norm_num [prefixSum, Finset.sum_range_succ, treeC1]
  have h4 : prefixSum 2 treeC1 4 = 10 := by
    norm_num [prefixSum, Finset.sum_range_succ, treeC1]
  refine ⟨?_, ⟨by norm_num, by rw [h4]⟩,
    by rw [show (3:ℕ)+1 = 4 from rfl, h4]; norm_num, ?_, ?_, ?_⟩
  · norm_num [findPrefixsumIdx, npMinD, npMaxD, findCore, findLoop,
      findStep, treeC1]
  · intro j hj
    interval_cases j <;> norm_num [h0, h1, h2, h3, h4]
  · norm_num [findPrefixsumIdx, npMinD, npMaxD]
  · constructor
    · norm_num [prefixSum]
    · norm_num [prefixSum, Finset.sum_range_succ]

end ClaimC1

section ClaimC10

/-- C10: for any operator, a batch write `tree[I] = V` at pairwise
distinct in-range indices — sorted or not, singleton included — makes a
point read return the written value at each index of `I`, and every
leaf outside `I` keeps its previous value. -/
theorem setItem_getItem_roundtrip {τ : Type} (op : τ → τ → τ) (k : ℕ)
    (v : ℕ → τ) (idxs : List ℕ) (vals : List τ)
    (hidx : ∀ i ∈ idxs, i < 2 ^ k) (hnd : idxs.Nodup)
    (hlen : idxs.length = vals.length) :
    (∀ p ∈ idxs.zip vals,
      getItem k (setItem op k v idxs vals) p.1 = some p.2) ∧
    ∀ j, j < 2 ^ k → j ∉ idxs →
      getItem k (setItem op k v idxs vals) j = getItem k v j := by
  constructor
  · intro p hp
    have hp1 : p.1 ∈ idxs := (List.of_mem_zip hp).1
    have hq := setItem_get_mem op k v idxs vals hidx hnd hlen p hp
    unfold getItem
    rw [if_pos (hidx p.1 hp1), hq]
  · intro j hj hmem
    unfold getItem
    rw [if_pos hj, if_pos hj,
      setItem_get_not_mem op k v idxs vals hidx hj hmem]

/-- C10 witness: an unsorted batch write `tree[[1, 0]] = [5, 7]` on a
two-leaf sum tree reads back `5` at leaf 1 and `7` at leaf 0. -/
theorem setItem_getItem_roundtrip_witness :
    (∀ i ∈ ([1, 0] : List ℕ), i < 2 ^ 1) ∧ ([1, 0] : List ℕ).Nodup ∧
    ([1, 0] : List ℕ).length = ([5, 7] : List ℚ).length ∧
    getItem 1 (setItem (· + ·) 1 (fun _ => (0 : ℚ)) [1, 0] [5, 7]) 1 =
      some 5 ∧
    getItem 1 (setItem (· + ·) 1 (fun _ => (0 : ℚ)) [1, 0] [5, 7]) 0 =
      some 7 := by
  have h1 : ∀ i ∈ ([1, 0] : List ℕ), i < 2 ^ 1 := by decide
  have h2 : ([1, 0] : List ℕ).Nodup := by decide
  have h3 : ([1, 0] : List ℕ).length = ([5, 7] : List ℚ).length := rfl
  have main := setItem_getItem_roundtrip (· + ·) 1 (fun _ => (0 : ℚ))
    [1, 0] [5, 7] h1 h2 h3
  refine ⟨h1, h2, h3, ?_, ?_⟩
  · exact main.1 (1, 5) (by simp)
  · exact main.1 (0, 7) (by simp)

end ClaimC10

section Buffers

/-- `np.max` for an array of indices. -/
def npMaxNat (l : List ℕ) : ℕ := l.foldl max (l.headD 0)

section FoldOrder

variable {α : Type} [LinearOrder α]

theorem acc_le_foldl_max {l : List α} : ∀ acc, acc ≤ l.foldl max acc := by
  induction l with
  | nil => intro acc; exact le_refl _
  | cons a xs ih =>
    intro acc
    exact le_trans (le_max_left acc a) (ih (max acc a))

theorem mem_le_foldl_max {l : List α} : ∀ acc, ∀ x ∈ l, x ≤ l.foldl max acc := by
  induction l with
  | nil => intro acc x hx; simp at hx
  | cons a xs ih =>
    intro acc x hx
    rcases List.mem_cons.1 hx with rfl | hx
    · exact le_trans (le_max_right acc x) (acc_le_foldl_max (max acc x))
    · exact ih (max acc a) x hx

theorem foldl_max_le_bound {B : α} {l : List α} : ∀ {acc}, acc ≤ B →
    (∀ x ∈ l, x ≤ B) → l.foldl max acc ≤ B := by
  induction l with
  | nil => intro acc hacc _; exact hacc
  | cons x xs ih =>
    intro acc hacc h
    exact ih (max_le hacc (h x (by simp))) (fun y hy => h y (by simp [hy]))

theorem foldl_min_le_acc {l : List α} : ∀ acc, l.foldl min acc ≤ acc := by
  induction l with
  | nil => intro acc; exact le_refl _
  | cons a xs ih =>
    intro acc
    exact le_trans (ih (min acc a)) (min_le_left acc a)

theorem foldl_min_le_mem {l : List α} : ∀ acc, ∀ x ∈ l, l.foldl min acc ≤ x := by
  induction l with
  | nil => intro acc x hx; simp at hx
  | cons a xs ih =>
    intro acc x hx
    rcases List.mem_cons.1 hx with rfl | hx
    · exact le_trans (foldl_min_le_acc (min acc x)) (min_le_right acc x)
    · exact ih (min acc a) x hx

end FoldOrder

theorem le_npMaxNat {l : List ℕ} {x : ℕ} (hx : x ∈ l) : x ≤ npMaxNat l :=
  mem_le_foldl_max _ x hx

theorem npMaxNat_lt {l : List ℕ} {B : ℕ} (hne : l ≠ [])
    (h : ∀ x ∈ l, x < B) : npMaxNat l < B := by
  cases l with
  | nil => exact absurd rfl hne
  | cons a rest =>
    have h1 : (a :: rest).foldl max ((a :: rest).headD 0) ≤ B - 1 := by
      refine foldl_max_le_bound ?_ (fun y hy => ?_)
      · simp only [List.headD_cons]
        have := h a (by simp); omega
      · have := h y hy; omega
    have hB : 1 ≤ B := by have := h a (by simp); omega
    unfold npMaxNat
    omega

theorem npMinD_le_mem {γ : Type} [LinearOrderedField γ] {l : List γ}
    {d x : γ} (hx : x ∈ l) : npMinD l d ≤ x :=
  foldl_min_le_mem _ x hx

theorem mem_le_npMaxD {γ : Type} [LinearOrderedField γ] {l : List γ}
    {d x : γ} (hx : x ∈ l) : x ≤ npMaxD l d :=
  mem_le_foldl_max _ x hx

/-- `ReplayBufferStorage`: five parallel fixed-capacity tensors (bundled
here into one abstract record per slot), a write cursor `_next_idx` and
the fill watermark `_max_filled` (what `__len__` reports).  Unwritten
slots hold the `torch.zeros` initialisation, embedded as `none`. -/
structure Store (T : Type) where
  size : ℕ
  nextIdx : ℕ
  maxFilled : ℕ
  data : ℕ → Option T

/-- Fresh storage of a given capacity. -/
def Store.init (T : Type) (size : ℕ) : Store T :=
  { size := size, nextIdx := 0, maxFilled := 0, data := fun _ => none }

/-- `ReplayBufferStorage.add`: slots `R = arange(next, next + N) % size`,
vectorized write at `R` (a later duplicate slot wins, as in the torch
fancy assignment), watermark `min(max(next + N, max_filled), size)`,
cursor `(next + N) % size`; returns `R`. -/
def Store.add {T : Type} (s : Store T) (batch : List T) : Store T × List ℕ :=
  let n := batch.length
  let R := (List.range n).map (fun i => (s.nextIdx + i) % s.size)
  ({ s with
      data := writeSeq s.data R (batch.map some),
      maxFilled := min (max (s.nextIdx + n) s.maxFilled) s.size,
      nextIdx := (s.nextIdx + n) % s.size },
    R)

/-- Left fold of a sequence of `add` calls. -/
def runAdds {T : Type} (s : Store T) (bs : List (List T)) : Store T :=
  bs.foldl (fun s b => (s.add b).1) s

/-- The spec's error taxonomy, plus the two failure modes the Python code
reaches that the taxonomy does not name: `lengthMismatch` (the leading
`assert len(idxes) == len(priorities)`) and `recursionLimit` (the
non-terminating `_reduce_helper` recursion on a degenerate query). -/
inductive RBErr
  | emptyBuffer
  | invalidPriority
  | indexRange
  | lengthMismatch
  | emptyInput
  | prefixSumOutOfRange
  | recursionLimit
deriving DecidableEq

/-- `ReplayBuffer`: the uniform variant.  `_storage` is `None` until the
first push. -/
structure RB (T : Type) where
  maxsize : ℕ
  storage : Option (Store T)

/-- `ReplayBuffer(size)`. -/
def RB.init (T : Type) (size : ℕ) : RB T :=
  { maxsize := size, storage := none }

/-- The write cursor the next push will use (0 when storage does not
exist yet, since the first push creates it fresh). -/
def RB.cursor {T : Type} (b : RB T) : ℕ :=
  match b.storage with
  | none => 0
  | some st => st.nextIdx

/-- `ReplayBuffer.push`: create storage on first use, then delegate to
`ReplayBufferStorage.add`, returning its slot indices. -/
def RB.push {T : Type} (b : RB T) (batch : List T) : RB T × List ℕ :=
  let st := match b.storage with
    | none => Store.init T b.maxsize
    | some st => st
  let r := st.add batch
  ({ b with storage := some r.1 }, r.2)

/-- `ReplayBuffer.sample`: `torch.randint(len(self._storage), ...)` then a
batched read.  On a freshly constructed buffer `_storage` is `None`, so
the `len` call fails before anything is sampled — the spec taxonomy's
`EmptyBuffer` condition.  `rand` stands for the drawn indices (each in
`[0, len)`). -/
def RB.sample {T : Type} (b : RB T) (rand : List ℕ) :
    Except RBErr (List (Option T)) :=
  match b.storage with
  | none => .error .emptyBuffer
  | some st => .ok (rand.map st.data)

/-- `it_capacity`: the `while it_capacity < size: it_capacity *= 2` loop
computes the smallest power of two that is at least `size`; we carry the
exponent. -/
def itCapExp (size : ℕ) : ℕ := Nat.clog 2 size

/-- `PrioritizedReplayBuffer`: the uniform buffer's storage plus the two
trees (sum tree over `ℝ`, min tree over `WithTop ℝ` since its neutral
element is `float('inf')`) and the `_max_priority` scalar. -/
structure PRB (T : Type) where
  maxsize : ℕ
  storage : Option (Store T)
  alpha : ℝ
  beta : ℝ
  k : ℕ
  sumV : ℕ → ℝ
  minV : ℕ → WithTop ℝ
  maxPriority : ℝ

/-- `PrioritizedReplayBuffer(size, alpha, beta)`. -/
noncomputable def PRB.init (T : Type) (size : ℕ) (alpha beta : ℝ) : PRB T :=
  { maxsize := size, storage := none, alpha := alpha, beta := beta,
    k := itCapExp size,
    sumV := fun _ => 0,
    minV := fun _ => ⊤,
    maxPriority := 1 }

/-- `PrioritizedReplayBuffer.push`: store the batch, then write
`priorities ** alpha` into both trees at the returned slots.
`if not priorities` is a Python falsiness test, so both `None` and `0.0`
select the `max_priority` default; a scalar priority broadcasts over the
batch.  The method has no `return` statement, hence the `none` result.
`max_priority` is not touched. -/
noncomputable def PRB.push {T : Type} (b : PRB T) (batch : List T)
    (priorities : Option ℝ) : PRB T × Option (List ℕ) :=
  let st := match b.storage with
    | none => Store.init T b.maxsize
    | some st => st
  let r := st.add batch
  let p : ℝ := match priorities with
    | none => b.maxPriority
    | some q => if q = 0 then b.maxPriority else q
  let w : ℝ := p ^ b.alpha
  ({ b with
      storage := some r.1
      sumV := setItem (· + ·) b.k b.sumV r.2 (List.replicate r.2.length w)
      minV := setItem min b.k b.minV r.2
        (List.replicate r.2.length ((w : ℝ) : WithTop ℝ)) },
    none)

/-- `PrioritizedReplayBuffer.update_priorities`, with its assertion
ladder in source order: the length assert, `np.min` on an empty array
(`ValueError`), `assert np.min(priorities) > 0` (`InvalidPriority`;
`np.min(idxes) >= 0` is vacuous over `ℕ`), `len(self._storage)` (fails
when storage was never created), `assert np.max(idxes) < len`
(`IndexRange`); then both tree writes and
`max_priority = max(max_priority, np.max(priorities))`. -/
noncomputable def PRB.updatePriorities {T : Type} (b : PRB T)
    (idxes : List ℕ) (ps : List ℝ) : Except RBErr (PRB T) :=
  if idxes.length ≠ ps.length then .error .lengthMismatch
  else if ps = [] then .error .emptyInput
  else if ¬0 < npMinD ps 0 then .error .invalidPriority
  else match b.storage with
    | none => .error .emptyBuffer
    | some st =>
      if ¬npMaxNat idxes < st.maxFilled then .error .indexRange
      else .ok { b with
        sumV := setItem (· + ·) b.k b.sumV idxes
          (ps.map (fun p => p ^ b.alpha))
        minV := setItem min b.k b.minV idxes
          (ps.map (fun p => ((p ^ b.alpha : ℝ) : WithTop ℝ)))
        maxPriority := max b.maxPriority (npMaxD ps 0) }

/-- `_sample_proportional`: `total = self._it_sum.sum(0, len(storage)-1)`
(for `len = 1` this is the degenerate `reduce(0, 0)` query whose
recursion never terminates), then `mass = np.random.random(batch) * total`
and one vectorized `find_prefixsum_idx`.  `draws` are the uniform
`[0, 1)` samples. -/
noncomputable def PRB.sampleProportional {T : Type} (b : PRB T)
    (st : Store T) (draws : List ℝ) : Except RBErr (List ℕ) :=
  match reduceT (· + ·) b.k b.sumV 0 (some ((st.maxFilled : ℤ) - 1)) with
  | none => .error .recursionLimit
  | some total =>
    match findPrefixsumIdx b.k b.sumV (draws.map (· * total)) with
    | none => .error .prefixSumOutOfRange
    | some idx => .ok idx

/-- `PrioritizedReplayBuffer.sample`: proportional indices, then
importance weights
`((leaf/sum()) * len) ** (-beta) / ((min()/sum() * len) ** (-beta))`.
`sum()` and `min()` are the default reductions, which return the root's
cached value (`reduceT_default`); the min-tree root is a real number in
every state with at least one stored priority, and `p_sample` reads the
sum-tree leaves at the sampled indices (all below capacity). -/
noncomputable def PRB.sample {T : Type} (b : PRB T) (draws : List ℝ) :
    Except RBErr (List (Option T) × List ℝ × List ℕ) :=
  match b.storage with
  | none => .error .emptyBuffer
  | some st =>
    match b.sampleProportional st draws with
    | .error e => .error e
    | .ok idxes =>
      let sumAll : ℝ := b.sumV 1
      let minAll : ℝ := WithTop.untop' 0 (b.minV 1)
      let pMin : ℝ := minAll / sumAll
      let maxWeight : ℝ := (pMin * (st.maxFilled : ℝ)) ^ (-b.beta)
      let weights := idxes.map (fun i =>
        ((b.sumV (2 ^ b.k + i) / sumAll) * (st.maxFilled : ℝ)) ^ (-b.beta) /
          maxWeight)
      .ok (idxes.map st.data, weights, idxes)

/-- One public mutation of the prioritized buffer. -/
inductive PRBOp (T : Type)
  | push (batch : List T) (priorities : Option ℝ)
  | update (idxes : List ℕ) (ps : List ℝ)

/-- Apply one mutation; a failed `update_priorities` aborts at an assert
before any write, leaving the state unchanged, and an empty batch push
crashes inside `unique` after writing nothing. -/
noncomputable def PRB.step {T : Type} (b : PRB T) : PRBOp T → PRB T
  | .push batch prio => (b.push batch prio).1
  | .update idxes ps =>
    match b.updatePriorities idxes ps with
    | .ok b' => b'
    | .error _ => b

/-- Run a sequence of mutations from the left. -/
noncomputable def PRB.run {T : Type} (b : PRB T) (ops : List (PRBOp T)) :
    PRB T :=
  ops.foldl PRB.step b

end Buffers

section ClaimC8

/-- C8: `sample` on a freshly constructed buffer into which nothing has
been pushed fails with the EmptyBuffer error, for both the uniform and
the prioritized variant (the storage is still `None`, so the `len` call
inside `sample` fails before anything is drawn). -/
theorem sample_empty_buffer (T : Type) (size : ℕ) (alpha beta : ℝ)
    (rand : List ℕ) (draws : List ℝ) :
    (RB.init T size).sample rand = .error .emptyBuffer ∧
    (PRB.init T size alpha beta).sample draws = .error .emptyBuffer :=
  ⟨rfl, rfl⟩

end ClaimC8

section ClaimC5

/-- C5 (amended): the storage layer and the uniform buffer's `push`
return the assigned slots `R = [w, w+1, ..., w+N-1] mod capacity` (`w`
the write cursor before the call), but `PrioritizedReplayBuffer.push`
has no `return` statement: it assigns the same slots internally and
returns `None`. -/
theorem push_return_values {T : Type} :
    (∀ (st : Store T) (batch : List T),
      (st.add batch).2 =
        (List.range batch.length).map (fun i => (st.nextIdx + i) % st.size)) ∧
    (∀ (b : RB T) (batch : List T),
      (∀ st, b.storage = some st → st.size = b.maxsize) →
      (b.push batch).2 =
        (List.range batch.length).map (fun i => (b.cursor + i) % b.maxsize)) ∧
    ∀ (b : PRB T) (batch : List T) (prio : Option ℝ),
      (b.push batch prio).2 = none := by
  refine ⟨fun st batch => rfl, fun b batch hsz => ?_, fun b batch prio => rfl⟩
  cases hs : b.storage with
  | none => simp [RB.push, RB.cursor, Store.add, Store.init, hs]
  | some st =>
    have := hsz st hs
    simp [RB.push, RB.cursor, Store.add, hs, this]

/-- C5 counterexample: on a fresh prioritized buffer a single-transition
push would assign slot `[0]`, but the call returns `None`, not `[0]` —
the claim that both variants return the assigned indices is false. -/
theorem prb_push_return_counterexample :
    ((PRB.init Unit 4 1 1).push [()] none).2 = none ∧
    ((PRB.init Unit 4 1 1).push [()] none).2 ≠
      some ((List.range 1).map (fun i => (0 + i) % 4)) := by
  refine ⟨rfl, ?_⟩
  rw [show ((PRB.init Unit 4 1 1).push [()] none).2 = none from rfl]
  simp

/-- C5 witness: a two-transition push on fresh capacity-4 buffers
assigns slots `[0, 1]` at both lower layers while the prioritized
variant returns `None`. -/
theorem push_return_values_witness :
    ((Store.init ℕ 4).add [5, 6]).2 = [0, 1] ∧
    ((RB.init ℕ 4).push [5, 6]).2 = [0, 1] ∧
    ((PRB.init ℕ 4 1 1).push [5, 6] none).2 = none := by
  obtain ⟨h1, h2, h3⟩ := push_return_values (T := ℕ)
  refine ⟨?_, ?_, h3 (PRB.init ℕ 4 1 1) [5, 6] none⟩
  · rw [h1 (Store.init ℕ 4) [5, 6]]
    rfl
  · rw [h2 (RB.init ℕ 4) [5, 6] (fun st hst => Option.noConfusion hst)]
    rfl

end ClaimC5

section ClaimC9

/-- Reachability facts for the circular store: the capacity field never
changes, the cursor stays inside `[0, size)`, and the watermark is
either saturated or equal to the cursor. -/
theorem runAdds_inv {T : Type} (size : ℕ) (hs : 1 ≤ size) :
    ∀ bs : List (List T),
      (runAdds (Store.init T size) bs).size = size ∧
      (runAdds (Store.init T size) bs).nextIdx < size ∧
      ((runAdds (Store.init T size) bs).maxFilled = size ∨
        (runAdds (Store.init T size) bs).maxFilled =
          (runAdds (Store.init T size) bs).nextIdx) := by
  intro bs
  induction bs using List.reverseRecOn with
  | nil => exact ⟨rfl, by simpa [runAdds, Store.init] using hs, Or.inr rfl⟩
  | append_singleton bs b ih =>
    have hstep : runAdds (Store.init T size) (bs ++ [b]) =
        ((runAdds (Store.init T size) bs).add b).1 := by
      unfold runAdds
      rw [List.foldl_append]
      rfl
    obtain ⟨h1, h2, h3⟩ := ih
    rw [hstep]
    set s := runAdds (Store.init T size) bs
    refine ⟨h1, ?_, ?_⟩
    · show (s.nextIdx + b.length) % s.size < size
      rw [h1]
      exact Nat.mod_lt _ (by omega)
    · show min (max (s.nextIdx + b.length) s.maxFilled) s.size = size ∨
        min (max (s.nextIdx + b.length) s.maxFilled) s.size =
          (s.nextIdx + b.length) % s.size
      rw [h1]
      rcases h3 with h3 | h3
      · left
        rw [h3]
        omega
      · rcases Nat.lt_or_ge (s.nextIdx + b.length) size with h | h
        · right
          rw [h3, Nat.mod_eq_of_lt h]
          omega
        · left
          rw [h3]
          omega

/-- C9: with capacity 3, five single pushes assign slots
`[0, 1, 2, 0, 1]`, `len()` ends at 3, and after the 4th push slot 0
holds the 4th transition, not the 1st; in general each push saturates
the watermark as `min(filled + pushed, capacity)`, which is monotone and
never exceeds the capacity. -/
theorem storage_wraparound_saturation :
    (let a1 := (Store.init ℕ 3).add [10]
     let a2 := a1.1.add [20]
     let a3 := a2.1.add [30]
     let a4 := a3.1.add [40]
     let a5 := a4.1.add [50]
     a1.2 = [0] ∧ a2.2 = [1] ∧ a3.2 = [2] ∧ a4.2 = [0] ∧ a5.2 = [1] ∧
     a5.1.maxFilled = 3 ∧ a4.1.data 0 = some 40 ∧ a4.1.data 0 ≠ some 10) ∧
    ∀ (T : Type) (size : ℕ), 1 ≤ size → ∀ (bs : List (List T)) (b : List T),
      (runAdds (Store.init T size) (bs ++ [b])).maxFilled =
        min ((runAdds (Store.init T size) bs).maxFilled + b.length) size ∧
      (runAdds (Store.init T size) bs).maxFilled ≤
        (runAdds (Store.init T size) (bs ++ [b])).maxFilled ∧
      (runAdds (Store.init T size) (bs ++ [b])).maxFilled ≤ size := by
  constructor
  · exact ⟨rfl, rfl, rfl, rfl, rfl, rfl, rfl, by decide⟩
  · intro T size hs bs b
    obtain ⟨h1, h2, h3⟩ := runAdds_inv size hs bs
    have hstep : runAdds (Store.init T size) (bs ++ [b]) =
        ((runAdds (Store.init T size) bs).add b).1 := by
      unfold runAdds
      rw [List.foldl_append]
      rfl
    rw [hstep]
    set s := runAdds (Store.init T size) bs
    have hshow : ((s.add b).1).maxFilled =
        min (max (s.nextIdx + b.length) s.maxFilled) s.size := rfl
    rw [hshow, h1]
    rcases h3 with h3 | h3 <;> rw [h3] <;> omega

/-- C9 witness: the saturation law applied to the first push at
capacity 3 (the watermark moves from 0 to `min(0 + 1, 3) = 1`). -/
theorem storage_wraparound_saturation_witness :
    (1 ≤ 3 ∧
      (runAdds (Store.init ℕ 3) ([] ++ [[10]])).maxFilled =
        min ((runAdds (Store.init ℕ 3) []).maxFilled + 1) 3) ∧
    (runAdds (Store.init ℕ 3) ([] ++ [[10]])).maxFilled = 1 := by
  have h := (storage_wraparound_saturation.2 ℕ 3 (by norm_num) [] [10]).1
  refine ⟨⟨by norm_num, by simpa using h⟩, ?_⟩
  rw [h]
  rfl

end ClaimC9

section ClaimC6

theorem foldl_min_choice {α : Type} [LinearOrder α] {l : List α} :
    ∀ acc, l.foldl min acc = acc ∨ l.foldl min acc ∈ l := by
  induction l with
  | nil => intro acc; exact Or.inl rfl
  | cons a xs ih =>
    intro acc
    rcases ih (min acc a) with h | h
    · rcases min_choice acc a with hm | hm
      · exact Or.inl (by rw [List.foldl_cons, h, hm])
      · exact Or.inr (by rw [List.foldl_cons, h, hm]; simp)
    · exact Or.inr (by simp [h])

theorem npMinD_mem {γ : Type} [LinearOrderedField γ] {l : List γ} {d : γ}
    (hne : l ≠ []) : npMinD l d ∈ l := by
  cases l with
  | nil => exact absurd rfl hne
  | cons a rest =>
    unfold npMinD
    simp only [List.headD_cons, List.foldl_cons, min_self]
    rcases foldl_min_choice (l := rest) a with h | h
    · rw [h]; simp
    · simp [h]

/-- C6 (amended): after a successful `update_priorities`,
`max_priority = max(max_priority, np.max(new_priorities))`; but `push`
never modifies `max_priority`, even when its explicit priorities exceed
the current value. -/
theorem max_priority_update {T : Type} :
    (∀ (b : PRB T) (batch : List T) (prio : Option ℝ),
      ((b.push batch prio).1).maxPriority = b.maxPriority) ∧
    ∀ (b : PRB T) (idxes : List ℕ) (ps : List ℝ) (b' : PRB T),
      b.updatePriorities idxes ps = .ok b' →
      b'.maxPriority = max b.maxPriority (npMaxD ps 0) := by
  constructor
  · intro b batch prio
    rfl
  · intro b idxes ps b' h
    unfold PRB.updatePriorities at h
    split at h
    · cases h
    · split at h
      · cases h
      · split at h
        · cases h
        · split at h
          · cases h
          · split at h
            · cases h
            · cases h
              rfl

/-- C6 counterexample: pushing with the explicit priority `2`, which
exceeds the current `max_priority = 1`, leaves `max_priority` at 1. -/
theorem prb_push_max_priority_counterexample :
    ((PRB.init Unit 4 1 1).push [()] (some 2)).1.maxPriority = 1 ∧
    (1 : ℝ) < 2 ∧ (1 : ℝ) ≠ 2 :=
  ⟨rfl, by norm_num, by norm_num⟩

/-- A small reachable-shape prioritized buffer used to instantiate the
hypothesis-bearing claims: one slot, one stored transition, flat trees. -/
noncomputable def prbWitState : PRB Unit :=
  { maxsize := 1, storage := some ⟨1, 0, 1, fun _ => none⟩, alpha := 1,
    beta := 1, k := 0, sumV := fun _ => 0, minV := fun _ => ⊤,
    maxPriority := 1 }

/-- Shape of a successful `update_priorities` call: when every assert
passes, the tree writes and the `max_priority` update are performed. -/
theorem updatePriorities_ok {T : Type} (b : PRB T) (st : Store T)
    (idxes : List ℕ) (ps : List ℝ)
    (hst : b.storage = some st)
    (hlen : idxes.length = ps.length) (hne : ps ≠ [])
    (hpos : 0 < npMinD ps 0) (hidx : npMaxNat idxes < st.maxFilled) :
    b.updatePriorities idxes ps = Except.ok { b with
      sumV := setItem (· + ·) b.k b.sumV idxes
        (ps.map (fun p => p ^ b.alpha))
      minV := setItem min b.k b.minV idxes
        (ps.map (fun p => ((p ^ b.alpha : ℝ) : WithTop ℝ)))
      maxPriority := max b.maxPriority (npMaxD ps 0) } := by
  unfold PRB.updatePriorities
  rw [if_neg (not_not_intro hlen), if_neg hne,
    if_neg (not_not_intro hpos)]
  simp only [hst]
  rw [if_neg (not_not_intro hidx)]

/-- C6 witness: updating the single stored priority to `2` raises
`max_priority` from 1 to `max(1, 2) = 2`. -/
theorem max_priority_update_witness :
    (prbWitState.updatePriorities [0] [2]).map
      (fun b' => b'.maxPriority) = Except.ok 2 := by
  have hb' := updatePriorities_ok prbWitState ⟨1, 0, 1, fun _ => none⟩
    [0] [2] rfl rfl (by simp) (by norm_num [npMinD]) (by norm_num [npMaxNat])
  rw [hb']
  have h2 := max_priority_update.2 prbWitState [0] [2] _ hb'
  have h3 : npMaxD ([2] : List ℝ) 0 = 2 := by
    norm_num [npMaxD]
  simp only [Except.map, h2, h3]
  norm_num [prbWitState, max_def]

end ClaimC6

section ClaimC7

/-- C7: `update_priorities` fails with `InvalidPriority` when some
priority is non-positive; with positive priorities it fails with
`IndexRange` when some index reaches `len()` or beyond; and when every
check passes it writes `priority ** alpha` into both trees at exactly
the given indices — every other leaf, and the stored transition records,
are untouched. -/
theorem update_priorities_contract {T : Type} (b : PRB T) (st : Store T)
    (idxes : List ℕ) (ps : List ℝ)
    (hst : b.storage = some st)
    (hlen : idxes.length = ps.length)
    (hne : ps ≠ []) :
    ((∃ p ∈ ps, p ≤ 0) →
      b.updatePriorities idxes ps = .error .invalidPriority) ∧
    ((∀ p ∈ ps, 0 < p) → (∃ i ∈ idxes, st.maxFilled ≤ i) →
      b.updatePriorities idxes ps = .error .indexRange) ∧
    ((∀ p ∈ ps, 0 < p) → (∀ i ∈ idxes, i < st.maxFilled) →
      st.maxFilled ≤ 2 ^ b.k → idxes.Nodup →
      ∃ b', b.updatePriorities idxes ps = .ok b' ∧
        b'.storage = b.storage ∧
        (∀ pr ∈ idxes.zip ps,
          b'.sumV (2 ^ b.k + pr.1) = pr.2 ^ b.alpha ∧
          b'.minV (2 ^ b.k + pr.1) = ((pr.2 ^ b.alpha : ℝ) : WithTop ℝ)) ∧
        ∀ j, j < 2 ^ b.k → j ∉ idxes →
          b'.sumV (2 ^ b.k + j) = b.sumV (2 ^ b.k + j) ∧
          b'.minV (2 ^ b.k + j) = b.minV (2 ^ b.k + j)) := by
  have hidxne : idxes ≠ [] := by
    intro h
    apply hne
    have := hlen
    rw [h] at this
    simpa using this.symm
  refine ⟨?_, ?_, ?_⟩
  · rintro ⟨p, hp, hp0⟩
    have hmin : ¬0 < npMinD ps 0 := by
      have := npMinD_le_mem (d := 0) hp
      push_neg
      linarith
    unfold PRB.updatePriorities
    rw [if_neg (not_not_intro hlen), if_neg hne, if_pos hmin]
  · rintro hpos ⟨i, hi, hfill⟩
    have hmin : 0 < npMinD ps 0 :=
      hpos _ (npMinD_mem hne)
    have hmax : ¬npMaxNat idxes < st.maxFilled := by
      have := le_npMaxNat hi
      omega
    unfold PRB.updatePriorities
    rw [if_neg (not_not_intro hlen), if_neg hne,
      if_neg (not_not_intro hmin)]
    simp only [hst]
    rw [if_pos hmax]
  · intro hpos hin hcap hnd
    have hmin : 0 < npMinD ps 0 :=
      hpos _ (npMinD_mem hne)
    have hmax : npMaxNat idxes < st.maxFilled :=
      npMaxNat_lt hidxne hin
    have hok := updatePriorities_ok b st idxes ps hst hlen hne hmin hmax
    refine ⟨_, hok, hst.symm ▸ rfl, ?_, ?_⟩
    · intro pr hpr
      have hidx2 : ∀ i ∈ idxes, i < 2 ^ b.k := by
        intro i hi
        have := hin i hi
        omega
      constructor
      · show setItem (· + ·) b.k b.sumV idxes
          (ps.map (fun p => p ^ b.alpha)) (2 ^ b.k + pr.1) = pr.2 ^ b.alpha
        refine setItem_get_mem _ b.k b.sumV idxes _ hidx2 hnd
          (by simpa using hlen) (pr.1, pr.2 ^ b.alpha) ?_
        rw [List.zip_map_right]
        exact List.mem_map.2 ⟨pr, hpr, rfl⟩
      · show setItem min b.k b.minV idxes
          (ps.map (fun p => ((p ^ b.alpha : ℝ) : WithTop ℝ))) (2 ^ b.k + pr.1) =
            ((pr.2 ^ b.alpha : ℝ) : WithTop ℝ)
        refine setItem_get_mem _ b.k b.minV idxes _ hidx2 hnd
          (by simpa using hlen) (pr.1, ((pr.2 ^ b.alpha : ℝ) : WithTop ℝ)) ?_
        rw [List.zip_map_right]
        exact List.mem_map.2 ⟨pr, hpr, rfl⟩
    · intro j hj hjmem
      have hidx2 : ∀ i ∈ idxes, i < 2 ^ b.k := by
        intro i hi
        have := hin i hi
        omega
      exact ⟨setItem_get_not_mem _ b.k b.sumV idxes _ hidx2 hj hjmem,
        setItem_get_not_mem _ b.k b.minV idxes _ hidx2 hj hjmem⟩

/-- C7 witness: on a one-slot buffer with `alpha = 1`, updating index 0
to priority 2 succeeds and writes `2 ** 1 = 2` into the sum-tree leaf. -/
theorem update_priorities_contract_witness :
    (prbWitState.updatePriorities [0] [2]).map
      (fun b' => (b'.sumV (2 ^ prbWitState.k + 0), b'.storage)) =
      Except.ok (2, prbWitState.storage) := by
  obtain ⟨b', hok, hstor, hzip, -⟩ :=
    (update_priorities_contract prbWitState ⟨1, 0, 1, fun _ => none⟩
      [0] [2] rfl rfl (by simp)).2.2
      (by intro p hp; simp only [List.mem_singleton] at hp; rw [hp]; norm_num)
      (by intro i hi; simp only [List.mem_singleton] at hi; rw [hi]; norm_num)
      (by norm_num [prbWitState]) (by simp)
  have hleaf := (hzip (0, 2) (by simp)).1
  rw [hok]
  simp only [Except.map, hleaf, hstor]
  have : ((2 : ℝ) ^ prbWitState.alpha) = 2 := by
    show ((2 : ℝ) ^ (1 : ℝ)) = 2
    exact Real.rpow_one 2
  rw [this]

end ClaimC7

section ClaimC2

/-- Reachability invariant of the prioritized buffer: both trees satisfy
the internal-node equation, the tree exponent and capacity are the
construction-time ones, and the storage (once created) has the declared
capacity with the watermark below it. -/
def PRBInv {T : Type} (size : ℕ) (b : PRB T) : Prop :=
  parentInv (· + ·) b.k b.sumV ∧
  parentInv min b.k b.minV ∧
  b.maxsize = size ∧ b.k = itCapExp size ∧
  ∀ st, b.storage = some st → st.size = size ∧ st.maxFilled ≤ st.size

theorem add_slots_lt {T : Type} (st : Store T) (batch : List T)
    (h : 0 < st.size) : ∀ i ∈ (st.add batch).2, i < st.size := by
  intro i hi
  unfold Store.add at hi
  simp only [List.mem_map, List.mem_range] at hi
  obtain ⟨j, _, rfl⟩ := hi
  exact Nat.mod_lt _ h

theorem prbPush_fields {T : Type} (b : PRB T) (batch : List T)
    (prio : Option ℝ) :
    ∃ (st : Store T) (w : ℝ),
      (b.storage = none → st = Store.init T b.maxsize) ∧
      (∀ s0, b.storage = some s0 → st = s0) ∧
      (b.push batch prio).1 = { b with
        storage := some (st.add batch).1
        sumV := setItem (· + ·) b.k b.sumV (st.add batch).2
          (List.replicate (st.add batch).2.length w)
        minV := setItem min b.k b.minV (st.add batch).2
          (List.replicate (st.add batch).2.length ((w : ℝ) : WithTop ℝ)) } := by
  cases hs : b.storage with
  | none =>
    refine ⟨Store.init T b.maxsize,
      (match prio with
        | none => b.maxPriority
        | some q => if q = 0 then b.maxPriority else q) ^ b.alpha,
      fun _ => rfl, by simp [hs], ?_⟩
    simp [PRB.push, hs]
  | some s0 =>
    refine ⟨s0,
      (match prio with
        | none => b.maxPriority
        | some q => if q = 0 then b.maxPriority else q) ^ b.alpha,
      by simp [hs], fun s hs' => Option.some.inj hs', ?_⟩
    simp [PRB.push, hs]

theorem prbInit_inv {T : Type} (size : ℕ) (alpha beta : ℝ) :
    PRBInv size (PRB.init T size alpha beta) := by
  refine ⟨?_, ?_, rfl, rfl, ?_⟩
  · intro n _ _
    show (0 : ℝ) = 0 + 0
    rw [add_zero]
  · intro n _ _
    show (⊤ : WithTop ℝ) = min ⊤ ⊤
    rw [min_self]
  · intro st hst
    cases hst

theorem prbStep_preserves {T : Type} (size : ℕ) (b : PRB T)
    (hb : PRBInv size b) : ∀ op, PRBInv size (b.step op) := by
  obtain ⟨hsum, hmin, hms, hk, hstore⟩ := hb
  have hcap : size ≤ 2 ^ b.k := by
    rw [hk]
    exact Nat.le_pow_clog (by norm_num) size
  intro op
  cases op with
  | push batch prio =>
    obtain ⟨st, w, hnone, hsome, heq⟩ := prbPush_fields b batch prio
    have hstsize : st.size = size := by
      cases hs : b.storage with
      | none =>
        rw [hnone hs]
        simpa [Store.init] using hms
      | some s0 =>
        rw [hsome s0 hs]
        exact (hstore s0 hs).1
    have hstep : b.step (.push batch prio) = (b.push batch prio).1 := rfl
    rw [hstep, heq]
    by_cases hzero : size = 0
    · have hk0 : b.k = 0 := by
        rw [hk, hzero]
        simp [itCapExp]
      refine ⟨?_, ?_, hms, hk, ?_⟩
      · intro n h1 h2
        rw [hk0] at h2
        omega
      · intro n h1 h2
        rw [hk0] at h2
        omega
      · intro s hs'
        have hs2 : (st.add batch).1 = s := by injection hs'
        subst hs2
        have e1 : (st.add batch).1.size = st.size := rfl
        have e2 : (st.add batch).1.maxFilled ≤ st.size := min_le_right _ _
        exact ⟨by omega, by omega⟩
    · have hpos : 0 < st.size := by omega
      have hRlt : ∀ i ∈ (st.add batch).2, i < 2 ^ b.k := by
        intro i hi
        have := add_slots_lt st batch hpos i hi
        omega
      refine ⟨setItem_parentInv _ _ _ _ _ hRlt hsum,
        setItem_parentInv _ _ _ _ _ hRlt hmin, hms, hk, ?_⟩
      intro s hs'
      have hs2 : (st.add batch).1 = s := by injection hs'
      subst hs2
      have e1 : (st.add batch).1.size = st.size := rfl
      have e2 : (st.add batch).1.maxFilled ≤ st.size := min_le_right _ _
      exact ⟨by omega, by omega⟩
  | update idxes ps =>
    have hstep : b.step (.update idxes ps) =
        match b.updatePriorities idxes ps with
        | .ok b' => b'
        | .error _ => b := rfl
    rw [hstep]
    cases hres : b.updatePriorities idxes ps with
    | error e => exact ⟨hsum, hmin, hms, hk, hstore⟩
    | ok b' =>
      unfold PRB.updatePriorities at hres
      split at hres
      · cases hres
      · split at hres
        · cases hres
        · split at hres
          · cases hres
          · split at hres
            · cases hres
            · rename_i st hstoreEq
              split at hres
              · cases hres
              · rename_i hidxguard
                cases hres
                push_neg at hidxguard
                obtain ⟨hsz, hfill⟩ := hstore st hstoreEq
                have hidx2 : ∀ i ∈ idxes, i < 2 ^ b.k := by
                  intro i hi
                  have h1 := le_npMaxNat hi
                  omega
                exact ⟨setItem_parentInv _ _ _ _ _ hidx2 hsum,
                  setItem_parentInv _ _ _ _ _ hidx2 hmin, hms, hk, hstore⟩

theorem prbRun_inv {T : Type} (size : ℕ) (alpha beta : ℝ)
    (ops : List (PRBOp T)) :
    PRBInv size (PRB.run (PRB.init T size alpha beta) ops) := by
  suffices h : ∀ (b : PRB T), PRBInv size b → PRBInv size (PRB.run b ops) from
    h _ (prbInit_inv size alpha beta)
  induction ops with
  | nil => intro b hb; exact hb
  | cons op rest ih =>
    intro b hb
    exact ih _ (prbStep_preserves size b hb op)

/-- C2: after any sequence of `push` / `update_priorities` operations on
a `PrioritizedReplayBuffer` (single or batched, sorted or unsorted,
wrapped-around index sets included — every mutation goes through the
batched `__setitem__`), every internal sum-tree node holds the sum of
its children, every internal min-tree node the minimum of its children,
and `sum(0, capacity)` equals the sum of all current leaf values. -/
theorem prb_tree_invariant (T : Type) (size : ℕ) (alpha beta : ℝ)
    (ops : List (PRBOp T)) :
    parentInv (· + ·) (PRB.run (PRB.init T size alpha beta) ops).k
      (PRB.run (PRB.init T size alpha beta) ops).sumV ∧
    parentInv min (PRB.run (PRB.init T size alpha beta) ops).k
      (PRB.run (PRB.init T size alpha beta) ops).minV ∧
    reduceT (· + ·) (PRB.run (PRB.init T size alpha beta) ops).k
        (PRB.run (PRB.init T size alpha beta) ops).sumV 0
        (some ((2 : ℤ) ^ (PRB.run (PRB.init T size alpha beta) ops).k)) =
      some (∑ i ∈ Finset.range (2 ^ (PRB.run (PRB.init T size alpha beta) ops).k),
        (PRB.run (PRB.init T size alpha beta) ops).sumV
          (2 ^ (PRB.run (PRB.init T size alpha beta) ops).k + i)) := by
  obtain ⟨hsum, hmin, -, -, -⟩ := prbRun_inv size alpha beta ops
  refine ⟨hsum, hmin, ?_⟩
  have h1 := reduceT_full (τ := ℝ) (· + ·)
    (PRB.run (PRB.init T size alpha beta) ops).k
    (PRB.run (PRB.init T size alpha beta) ops).sumV
  have h2 := root_eq_leafSum (PRB.run (PRB.init T size alpha beta) ops).k
    (PRB.run (PRB.init T size alpha beta) ops).sumV hsum
  rw [← h2]
  exact h1

end ClaimC2

section ClaimC3

theorem mem_zip_right {α β : Type} :
    ∀ (l₁ : List α) (l₂ : List β), l₁.length = l₂.length →
      ∀ x ∈ l₂, ∃ p ∈ l₁.zip l₂, p.2 = x := by
  intro l₁
  induction l₁ with
  | nil =>
    intro l₂ hlen x hx
    cases l₂ with
    | nil => simp at hx
    | cons b bs => simp at hlen
  | cons a as ih =>
    intro l₂ hlen x hx
    cases l₂ with
    | nil => simp at hx
    | cons b bs =>
      rcases List.mem_cons.1 hx with rfl | hx
      · exact ⟨(a, x), by simp, rfl⟩
      · obtain ⟨p, hp, hpx⟩ := ih bs (by simpa using hlen) x hx
        exact ⟨p, by simp [hp], hpx⟩

/-- What `_sample_proportional` actually does on a buffer holding
`len ≥ 2` transitions with positive priorities: the scaling factor is
`sum(0, len-1)` — the mass of leaves `[0, len-1)`, excluding the leaf at
`len() - 1` — and every sampled index therefore lies strictly below
`len() - 1`. -/
theorem sampleProportional_spec {T : Type} (b : PRB T) (st : Store T)
    (draws : List ℝ)
    (hinv : parentInv (· + ·) b.k b.sumV)
    (hlen2 : 2 ≤ st.maxFilled)
    (hlenk : st.maxFilled ≤ 2 ^ b.k)
    (hpos : ∀ i, i < st.maxFilled → 0 < b.sumV (2 ^ b.k + i))
    (hzero : ∀ i, st.maxFilled ≤ i → i < 2 ^ b.k → b.sumV (2 ^ b.k + i) = 0)
    (hdne : draws ≠ [])
    (hdraws : ∀ u ∈ draws, 0 ≤ u ∧ u < 1) :
    b.sampleProportional st draws =
      Except.ok (findCore b.k b.sumV
        (draws.map (· * prefixSum b.k b.sumV (st.maxFilled - 1)))) ∧
    (findCore b.k b.sumV
      (draws.map (· * prefixSum b.k b.sumV (st.maxFilled - 1)))).length =
      draws.length ∧
    ∀ pr ∈ draws.zip (findCore b.k b.sumV
        (draws.map (· * prefixSum b.k b.sumV (st.maxFilled - 1)))),
      pr.2 + 1 < st.maxFilled ∧
      prefixSum b.k b.sumV pr.2 ≤
        pr.1 * prefixSum b.k b.sumV (st.maxFilled - 1) ∧
      pr.1 * prefixSum b.k b.sumV (st.maxFilled - 1) <
        prefixSum b.k b.sumV (pr.2 + 1) := by
  set k := b.k with hkdef
  set v := b.sumV with hvdef
  set len := st.maxFilled with hlendef
  set S' := prefixSum k v (len - 1) with hS'
  have hnn : ∀ i, i < 2 ^ k → 0 ≤ v (2 ^ k + i) := by
    intro i hi
    rcases Nat.lt_or_ge i len with h | h
    · exact (hpos i h).le
    · exact (hzero i h hi).ge
  have hS'pos : 0 < S' := by
    rw [hS']
    unfold prefixSum
    refine Finset.sum_pos (fun i hi => ?_) ?_
    · refine hpos i ?_
      have := Finset.mem_range.1 hi
      omega
    · refine Finset.nonempty_range_iff.2 ?_
      omega
  have hS'le : S' ≤ prefixSum k v (2 ^ k) := by
    rw [hS']
    exact prefixSum_mono k v hnn (by omega) (le_refl _)
  -- the reduce query `sum(0, len - 1)` evaluates to the prefix mass S'
  have htotal : reduceT (· + ·) k v 0 (some ((len : ℤ) - 1)) = some S' := by
    have hneg : ¬((len : ℤ) - 1 < 0) := by
      push_neg
      have : (2 : ℤ) ≤ (len : ℤ) := by exact_mod_cast hlen2
      omega
    show reduceHelper (· + ·) v (k + 1) 0
        ((if (len : ℤ) - 1 < 0 then (len : ℤ) - 1 + 2 ^ k
          else (len : ℤ) - 1) - 1) 1 0 ((2 ^ k : ℤ) - 1) = some S'
    rw [if_neg hneg]
    have h := reduceHelper_leftAligned k v hinv k 1 0 (len - 2) (k + 1)
      (by omega) (by omega) (by
        have : (1 + 1) * 2 ^ k = 2 ^ (k + 1) := by ring
        omega)
      (by omega) (by omega)
    have hc1 : ((len - 2 : ℕ) : ℤ) = (len : ℤ) - 1 - 1 := by
      have : (2 : ℤ) ≤ (len : ℤ) := by exact_mod_cast hlen2
      omega
    have hc2 : ((0 : ℕ) : ℤ) = (0 : ℤ) := rfl
    rw [hc1, hc2] at h
    have hc3 : (0 : ℤ) + 2 ^ k - 1 = (2 : ℤ) ^ k - 1 := by ring
    rw [hc3] at h
    rw [h]
    congr 1
    rw [hS']
    unfold prefixSum
    have hcnt : len - 2 + 1 - 0 = len - 1 := by omega
    rw [hcnt]
    exact Finset.sum_congr rfl (fun i _ => by rw [Nat.add_zero])
  have hmassne : draws.map (· * S') ≠ [] := by
    simpa using hdne
  have hmassbound : ∀ t ∈ draws.map (· * S'), 0 ≤ t ∧ t < prefixSum k v (2 ^ k) := by
    intro t ht
    obtain ⟨u, hu, rfl⟩ := List.mem_map.1 ht
    obtain ⟨hu0, hu1⟩ := hdraws u hu
    constructor
    · exact mul_nonneg hu0 hS'pos.le
    · have h1 : u * S' < 1 * S' :=
        mul_lt_mul_of_pos_right hu1 hS'pos
      rw [one_mul] at h1
      linarith
  have hkpos : 1 ≤ k := by
    by_contra hcon
    push_neg at hcon
    have h0 : k = 0 := by omega
    have h1 : len ≤ 1 := by
      have h2 := hlenk
      rw [h0] at h2
      simpa using h2
    omega
  obtain ⟨hfind, hlens, hzipspec⟩ :=
    findPrefixsumIdx_spec k v (draws.map (· * S')) hkpos hinv hnn hmassne
      hmassbound
  have hgoal1 : b.sampleProportional st draws =
      Except.ok (findCore k v (draws.map (· * S'))) := by
    unfold PRB.sampleProportional
    rw [← hkdef, ← hvdef, ← hlendef, htotal]
    simp only [hfind]
  refine ⟨hgoal1, by rw [hlens, List.length_map], ?_⟩
  intro pr hpr
  have hprd : pr.1 ∈ draws := (List.of_mem_zip hpr).1
  obtain ⟨hu0, hu1⟩ := hdraws pr.1 hprd
  have hmem2 : (pr.1 * S', pr.2) ∈
      (draws.map (· * S')).zip (findCore k v (draws.map (· * S'))) := by
    rw [List.zip_map_left]
    exact List.mem_map.2 ⟨pr, hpr, rfl⟩
  obtain ⟨hlt, hle, hstrad, -⟩ := hzipspec (pr.1 * S', pr.2) hmem2
  have hmass_lt : pr.1 * S' < S' := by
    have h1 : pr.1 * S' < 1 * S' := mul_lt_mul_of_pos_right hu1 hS'pos
    linarith
  have hidx : pr.2 + 1 < len := by
    by_contra hcon
    push_neg at hcon
    have h1 : len - 1 ≤ pr.2 := by omega
    have h2 : S' ≤ prefixSum k v pr.2 :=
      prefixSum_mono k v hnn h1 (by omega)
    simp only at hle
    linarith
  exact ⟨hidx, hle, hstrad⟩

/-- C3 (amended): `sample` draws `batch_size` independent uniform values
over `[0, sum(0, len()-1))` — the code scales the uniform draws by
`self._it_sum.sum(0, len(self._storage) - 1)`, the mass of leaves
`[0, len()-1)` only, not by the full `sum()` — and maps each value
through `find_prefixsum_idx` before reading those slots from the store.
Consequently the most recently filled slot index `len()-1` carries no
sampling mass and is never returned (its priority is unreachable). -/
theorem sample_proportional_masses {T : Type} (b : PRB T) (st : Store T)
    (draws : List ℝ)
    (hinv : parentInv (· + ·) b.k b.sumV)
    (hlen2 : 2 ≤ st.maxFilled)
    (hlenk : st.maxFilled ≤ 2 ^ b.k)
    (hpos : ∀ i, i < st.maxFilled → 0 < b.sumV (2 ^ b.k + i))
    (hzero : ∀ i, st.maxFilled ≤ i → i < 2 ^ b.k → b.sumV (2 ^ b.k + i) = 0)
    (hdne : draws ≠ [])
    (hdraws : ∀ u ∈ draws, 0 ≤ u ∧ u < 1) :
    b.sampleProportional st draws =
      Except.ok (findCore b.k b.sumV
        (draws.map (· * prefixSum b.k b.sumV (st.maxFilled - 1)))) ∧
    (findCore b.k b.sumV
      (draws.map (· * prefixSum b.k b.sumV (st.maxFilled - 1)))).length =
      draws.length ∧
    ∀ pr ∈ draws.zip (findCore b.k b.sumV
        (draws.map (· * prefixSum b.k b.sumV (st.maxFilled - 1)))),
      pr.2 + 1 < st.maxFilled ∧
      prefixSum b.k b.sumV pr.2 ≤
        pr.1 * prefixSum b.k b.sumV (st.maxFilled - 1) ∧
      pr.1 * prefixSum b.k b.sumV (st.maxFilled - 1) <
        prefixSum b.k b.sumV (pr.2 + 1) :=
  sampleProportional_spec b st draws hinv hlen2 hlenk hpos hzero hdne hdraws

/-- A full two-slot store. -/
def stTwo : Store Unit := ⟨2, 0, 2, fun _ => none⟩

/-- Two stored transitions with equal priority 1 (tree `[_, 2, 1, 1]`). -/
noncomputable def prbUnif : PRB Unit :=
  { maxsize := 2, storage := some stTwo, alpha := 1, beta := 1, k := 1,
    sumV := fun n => [0, 2, 1, 1].getD n 0,
    minV := fun n => [⊤, 1, 1, 1].getD n ⊤, maxPriority := 1 }

/-- Two stored transitions with priorities `[2, 1]` (tree `[_, 3, 2, 1]`). -/
noncomputable def prbC3c : PRB Unit :=
  { maxsize := 2, storage := some stTwo, alpha := 1, beta := 1, k := 1,
    sumV := fun n => [0, 3, 2, 1].getD n 0,
    minV := fun n => [⊤, 1, 2, 1].getD n ⊤, maxPriority := 2 }

theorem prbUnif_parentInv : parentInv (· + ·) prbUnif.k prbUnif.sumV := by
  intro n h1 h2
  simp only [prbUnif] at h2
  norm_num at h2
  interval_cases n
  norm_num [prbUnif]

/-- C3 witness: with two stored unit-priority transitions, the draw
`u = 1/2` is scaled by `sum(0, 1) = 1` and maps to slot 0; slot
`len() - 1 = 1` is not reachable. -/
theorem sample_proportional_masses_witness :
    prbUnif.sampleProportional stTwo [(1 / 2 : ℝ)] = Except.ok [0] ∧
    (0 + 1 < stTwo.maxFilled) := by
  have main := sample_proportional_masses prbUnif stTwo [(1 / 2 : ℝ)]
    prbUnif_parentInv (by norm_num [stTwo]) (by norm_num [prbUnif, stTwo])
    (by
      intro i hi
      simp only [stTwo] at hi
      interval_cases i <;> norm_num [prbUnif])
    (by
      intro i h1 h2
      simp only [prbUnif] at h2 ⊢
      simp only [stTwo] at h1
      omega)
    (by simp)
    (by
      intro u hu
      simp only [List.mem_singleton] at hu
      rw [hu]
      norm_num)
  obtain ⟨hok, -, hzip⟩ := main
  have hS : prefixSum prbUnif.k prbUnif.sumV (stTwo.maxFilled - 1) = 1 := by
    norm_num [prefixSum, prbUnif, stTwo, Finset.sum_range_succ]
  have hcore : findCore prbUnif.k prbUnif.sumV
      ([(1 / 2 : ℝ)].map (· * prefixSum prbUnif.k prbUnif.sumV
        (stTwo.maxFilled - 1))) = [0] := by
    rw [hS]
    norm_num [findCore, findLoop, findStep, prbUnif]
  rw [hcore] at hok hzip
  refine ⟨hok, ?_⟩
  exact (hzip (1 / 2, 0) (by simp)).1

/-- C3 counterexample: two transitions with priorities `[2, 1]`, total
mass `sum() = 3`.  Under the claim, the draw `u = 0.9` becomes mass
`2.7`, which straddles slot 1 (cumulative `[2, 3)`).  The code instead
scales by `sum(0, len-1) = 2` and returns slot 0; slot `len()-1` can
never be drawn. -/
theorem sample_proportional_counterexample :
    prbC3c.sampleProportional stTwo [(9 / 10 : ℝ)] = Except.ok [0] ∧
    prefixSum 1 prbC3c.sumV 1 ≤ (9 / 10 : ℝ) * prbC3c.sumV 1 ∧
    (9 / 10 : ℝ) * prbC3c.sumV 1 < prefixSum 1 prbC3c.sumV 2 ∧
    ([0] : List ℕ) ≠ [1] := by
  refine ⟨?_, ?_, ?_, by simp⟩
  · norm_num [PRB.sampleProportional, reduceT, reduceHelper,
      findPrefixsumIdx, findCore, findLoop, findStep, npMinD, npMaxD,
      prbC3c, stTwo]
  · norm_num [prefixSum, prbC3c, Finset.sum_range_succ]
  · norm_num [prefixSum, prbC3c, Finset.sum_range_succ]

end ClaimC3

section ClaimC4

theorem leafFold_min_le {γ : Type} [LinearOrder γ] [OrderTop γ]
    (v : ℕ → γ) (lo : ℕ) :
    ∀ len j, j < len → leafFold min ⊤ v lo len ≤ v (lo + j) := by
  intro len
  induction len with
  | zero =>
    intro j hj
    exact absurd hj (Nat.not_lt_zero j)
  | succ n ih =>
    intro j hj
    rw [leafFold_add_one min ⊤ (fun a b c => min_assoc a b c)
      (fun x => min_eq_right le_top) (fun x => min_eq_left le_top)]
    rcases Nat.lt_or_ge j n with h | h
    · exact le_trans (min_le_left _ _) (ih j h)
    · have hj' : j = n := by omega
      subst hj'
      exact min_le_right _ _

theorem leafFold_min_cases {γ : Type} [LinearOrder γ] [OrderTop γ]
    (v : ℕ → γ) (lo : ℕ) :
    ∀ len, leafFold min ⊤ v lo len = ⊤ ∨
      ∃ j, j < len ∧ leafFold min ⊤ v lo len = v (lo + j) := by
  intro len
  induction len with
  | zero =>
    left
    simp [leafFold]
  | succ n ih =>
    rw [leafFold_add_one min ⊤ (fun a b c => min_assoc a b c)
      (fun x => min_eq_right le_top) (fun x => min_eq_left le_top)]
    rcases min_choice (leafFold min ⊤ v lo n) (v (lo + n)) with h | h
    · rw [h]
      rcases ih with h2 | ⟨j, hj, h2⟩
      · left
        exact h2
      · right
        exact ⟨j, by omega, h2⟩
    · right
      exact ⟨n, by omega, h⟩

/-- C4 (amended): the weight formula is as claimed —
`w_i = ((leaf_i / sum()) * len) ** (-beta) / ((min() / sum() * len) ** (-beta))`
— and WHEN `beta ≥ 0` every returned weight satisfies `0 < w_i ≤ 1`;
`beta` is never validated by the code, and for `beta < 0` the bound
fails (see the counterexample). Hypotheses: a consistent pair of trees
over `len ≥ 2` stored transitions with positive priorities (sum leaves
positive on `[0, len)` and zero above, min leaves mirroring the sum
leaves with `inf` padding), and a non-empty batch of uniform draws. -/
theorem importance_weights {T : Type} (b : PRB T) (st : Store T)
    (draws : List ℝ)
    (hst : b.storage = some st)
    (hinv : parentInv (· + ·) b.k b.sumV)
    (hminv : parentInv min b.k b.minV)
    (hlen2 : 2 ≤ st.maxFilled)
    (hlenk : st.maxFilled ≤ 2 ^ b.k)
    (hpos : ∀ i, i < st.maxFilled → 0 < b.sumV (2 ^ b.k + i))
    (hzero : ∀ i, st.maxFilled ≤ i → i < 2 ^ b.k → b.sumV (2 ^ b.k + i) = 0)
    (hmins : ∀ i, i < st.maxFilled →
      b.minV (2 ^ b.k + i) = (b.sumV (2 ^ b.k + i) : WithTop ℝ))
    (hmint : ∀ i, st.maxFilled ≤ i → i < 2 ^ b.k →
      b.minV (2 ^ b.k + i) = ⊤)
    (hbeta : 0 ≤ b.beta)
    (hdne : draws ≠ [])
    (hdraws : ∀ u ∈ draws, 0 ≤ u ∧ u < 1) :
    ∃ idxes : List ℕ,
      b.sample draws = Except.ok (idxes.map st.data,
        idxes.map (fun i =>
          ((b.sumV (2 ^ b.k + i) / b.sumV 1) * (st.maxFilled : ℝ)) ^
              (-b.beta) /
            (WithTop.untop' 0 (b.minV 1) / b.sumV 1 * (st.maxFilled : ℝ)) ^
              (-b.beta)),
        idxes) ∧
      ∀ i ∈ idxes,
        0 < ((b.sumV (2 ^ b.k + i) / b.sumV 1) * (st.maxFilled : ℝ)) ^
              (-b.beta) /
            (WithTop.untop' 0 (b.minV 1) / b.sumV 1 * (st.maxFilled : ℝ)) ^
              (-b.beta) ∧
        ((b.sumV (2 ^ b.k + i) / b.sumV 1) * (st.maxFilled : ℝ)) ^
              (-b.beta) /
            (WithTop.untop' 0 (b.minV 1) / b.sumV 1 * (st.maxFilled : ℝ)) ^
              (-b.beta) ≤ 1 := by
  obtain ⟨hok, hlens, hzip⟩ :=
    sampleProportional_spec b st draws hinv hlen2 hlenk hpos hzero hdne hdraws
  refine ⟨findCore b.k b.sumV
      (draws.map (· * prefixSum b.k b.sumV (st.maxFilled - 1))), ?_, ?_⟩
  · unfold PRB.sample
    rw [hst]
    simp only [hok]
  · intro i hi
    obtain ⟨pr, hpr, hpr2⟩ := mem_zip_right draws _ hlens.symm i hi
    obtain ⟨hidx1, -, -⟩ := hzip pr hpr
    rw [hpr2] at hidx1
    have hilen : i < st.maxFilled := by omega
    have hnn : ∀ j, j < 2 ^ b.k → 0 ≤ b.sumV (2 ^ b.k + j) := by
      intro j hj
      rcases Nat.lt_or_ge j st.maxFilled with h | h
      · exact (hpos j h).le
      · exact (hzero j h hj).ge
    have hSpos : 0 < b.sumV 1 := by
      rw [root_eq_leafSum b.k b.sumV hinv]
      refine Finset.sum_pos' (fun j hj => hnn j (Finset.mem_range.1 hj)) ?_
      refine ⟨0, Finset.mem_range.2 (Nat.pos_pow_of_pos _ (by norm_num)), ?_⟩
      exact hpos 0 (by omega)
    have hroot : b.minV 1 = leafFold min ⊤ b.minV (2 ^ b.k) (2 ^ b.k) := by
      have h := val_subtree min ⊤ (fun a b c => min_assoc a b c)
        (fun x => min_eq_right le_top) (fun x => min_eq_left le_top)
        b.k b.minV hminv b.k 1 (by omega)
        (by
          have : (1 + 1) * 2 ^ b.k = 2 ^ (b.k + 1) := by ring
          omega)
      simpa using h
    have hmle : ∀ j, j < 2 ^ b.k → b.minV 1 ≤ b.minV (2 ^ b.k + j) := by
      intro j hj
      rw [hroot]
      exact leafFold_min_le b.minV (2 ^ b.k) (2 ^ b.k) j hj
    have hne0 : b.minV 1 ≤ (b.sumV (2 ^ b.k + 0) : WithTop ℝ) := by
      have h0 := hmle 0 (Nat.pos_pow_of_pos _ (by norm_num))
      rwa [hmins 0 (by omega)] at h0
    have hattain : ∃ j, j < st.maxFilled ∧
        b.minV 1 = (b.sumV (2 ^ b.k + j) : WithTop ℝ) := by
      rcases leafFold_min_cases b.minV (2 ^ b.k) (2 ^ b.k) with
        htop | ⟨j, hj, hfold⟩
      · rw [hroot, htop] at hne0
        exact absurd (top_le_iff.1 hne0) WithTop.coe_ne_top
      · rcases Nat.lt_or_ge j st.maxFilled with hjl | hjl
        · exact ⟨j, hjl, by rw [hroot, hfold, hmins j hjl]⟩
        · exfalso
          rw [hmint j hjl hj] at hfold
          rw [hroot, hfold] at hne0
          exact absurd (top_le_iff.1 hne0) WithTop.coe_ne_top
    obtain ⟨j0, hj0, hj0eq⟩ := hattain
    have hmval : WithTop.untop' 0 (b.minV 1) = b.sumV (2 ^ b.k + j0) := by
      rw [hj0eq]
      exact WithTop.untop'_coe _ _
    have hmpos : 0 < WithTop.untop' 0 (b.minV 1) := by
      rw [hmval]
      exact hpos j0 hj0
    have hmle' : WithTop.untop' 0 (b.minV 1) ≤ b.sumV (2 ^ b.k + i) := by
      have h1 := hmle i (by omega)
      rw [hj0eq, hmins i hilen] at h1
      rw [hmval]
      exact_mod_cast h1
    have hL : (0 : ℝ) < (st.maxFilled : ℝ) := by
      have h2 : 0 < st.maxFilled := by omega
      exact_mod_cast h2
    have hpMpos :
        0 < WithTop.untop' 0 (b.minV 1) / b.sumV 1 * (st.maxFilled : ℝ) :=
      mul_pos (div_pos hmpos hSpos) hL
    have hpIpos :
        0 < (b.sumV (2 ^ b.k + i) / b.sumV 1) * (st.maxFilled : ℝ) :=
      mul_pos (div_pos (hpos i hilen) hSpos) hL
    have hple : WithTop.untop' 0 (b.minV 1) / b.sumV 1 * (st.maxFilled : ℝ) ≤
        (b.sumV (2 ^ b.k + i) / b.sumV 1) * (st.maxFilled : ℝ) :=
      mul_le_mul_of_nonneg_right ((div_le_div_iff_of_pos_right hSpos).2 hmle')
        hL.le
    have hwle :
        ((b.sumV (2 ^ b.k + i) / b.sumV 1) * (st.maxFilled : ℝ)) ^
            (-b.beta) ≤
          (WithTop.untop' 0 (b.minV 1) / b.sumV 1 * (st.maxFilled : ℝ)) ^
            (-b.beta) :=
      Real.rpow_le_rpow_of_nonpos hpMpos hple (neg_nonpos.2 hbeta)
    have hden :
        0 < (WithTop.untop' 0 (b.minV 1) / b.sumV 1 * (st.maxFilled : ℝ)) ^
          (-b.beta) :=
      Real.rpow_pos_of_pos hpMpos _
    have hnum :
        0 < ((b.sumV (2 ^ b.k + i) / b.sumV 1) * (st.maxFilled : ℝ)) ^
          (-b.beta) :=
      Real.rpow_pos_of_pos hpIpos _
    exact ⟨div_pos hnum hden, (div_le_one hden).2 hwle⟩

theorem prbUnif_minParentInv : parentInv min prbUnif.k prbUnif.minV := by
  intro n h1 h2
  simp only [prbUnif] at h2
  norm_num at h2
  interval_cases n
  norm_num [prbUnif]

/-- C4 witness: two stored transitions of priority 1 and `beta = 1`; the
sample succeeds, each weight follows the formula, and the bounds
`0 < w ≤ 1` hold. -/
theorem importance_weights_witness :
    ∃ idxes : List ℕ,
      prbUnif.sample [(1 / 2 : ℝ)] = Except.ok (idxes.map stTwo.data,
        idxes.map (fun i =>
          ((prbUnif.sumV (2 ^ prbUnif.k + i) / prbUnif.sumV 1) *
              (stTwo.maxFilled : ℝ)) ^ (-prbUnif.beta) /
            (WithTop.untop' 0 (prbUnif.minV 1) / prbUnif.sumV 1 *
              (stTwo.maxFilled : ℝ)) ^ (-prbUnif.beta)),
        idxes) ∧
      ∀ i ∈ idxes,
        0 < ((prbUnif.sumV (2 ^ prbUnif.k + i) / prbUnif.sumV 1) *
              (stTwo.maxFilled : ℝ)) ^ (-prbUnif.beta) /
            (WithTop.untop' 0 (prbUnif.minV 1) / prbUnif.sumV 1 *
              (stTwo.maxFilled : ℝ)) ^ (-prbUnif.beta) ∧
        ((prbUnif.sumV (2 ^ prbUnif.k + i) / prbUnif.sumV 1) *
              (stTwo.maxFilled : ℝ)) ^ (-prbUnif.beta) /
            (WithTop.untop' 0 (prbUnif.minV 1) / prbUnif.sumV 1 *
              (stTwo.maxFilled : ℝ)) ^ (-prbUnif.beta) ≤ 1 :=
  importance_weights prbUnif stTwo [(1 / 2 : ℝ)] rfl prbUnif_parentInv
    prbUnif_minParentInv (by norm_num [stTwo]) (by norm_num [prbUnif, stTwo])
    (by
      intro i hi
      simp only [stTwo] at hi
      interval_cases i <;> norm_num [prbUnif])
    (by
      intro i h1 h2
      simp only [prbUnif] at h2
      simp only [stTwo] at h1
      omega)
    (by
      intro i hi
      simp only [stTwo] at hi
      interval_cases i <;> norm_num [prbUnif, WithTop.coe_one])
    (by
      intro i h1 h2
      simp only [prbUnif] at h2
      simp only [stTwo] at h1
      omega)
    (by norm_num [prbUnif])
    (by simp)
    (by
      intro u hu
      simp only [List.mem_singleton] at hu
      rw [hu]
      norm_num)

/-- Two stored transitions with priorities `[2, 1]` and an unvalidated
`beta = -1`. -/
noncomputable def prbC4c : PRB Unit :=
  { maxsize := 2, storage := some stTwo, alpha := 1, beta := -1, k := 1,
    sumV := fun n => [0, 3, 2, 1].getD n 0,
    minV := fun n => [⊤, ((1 : ℝ) : WithTop ℝ), ((2 : ℝ) : WithTop ℝ),
      ((1 : ℝ) : WithTop ℝ)].getD n ⊤,
    maxPriority := 2 }

/-- C4 counterexample: the code never validates `beta`.  With
`beta = -1` and priorities `[2, 1]`, the draw `0` samples slot 0 and its
returned weight is `2`, violating the claimed bound `w ≤ 1` (the weight
is still exactly the claimed formula's value). -/
theorem importance_weights_counterexample :
    prbC4c.sample [(0 : ℝ)] =
      Except.ok ([(none : Option Unit)], [(2 : ℝ)], [(0 : ℕ)]) ∧
    ¬((2 : ℝ) ≤ 1) := by
  constructor
  · norm_num [PRB.sample, PRB.sampleProportional, reduceT, reduceHelper,
      findPrefixsumIdx, findCore, findLoop, findStep, npMinD, npMaxD,
      prbC4c, stTwo, WithTop.untop'_coe, Real.rpow_one]
  · norm_num

end ClaimC4

end DeepControl
